import Mathlib

/-!
Verification development for the PDFs-Smart-Rename repository.

The Python sources are shallowly embedded: pure string manipulation is
modelled over `List Char` (Python `str` indexing is by code point, which
matches), file-system state is an association list from path to a content
tag, and fallible calls return `Except PyErr`.  External collaborators
(the PDF library, the OCR engine, the HTTP client) appear as oracle
parameters, exactly at the call boundary the code uses them.

Modelling notes, applying throughout:
* `unicodedata.normalize("NFKD", s)` is modelled as the identity map.
  Real NFKD is the identity on ASCII strings, and every sanitizer output
  below is ASCII, so all theorems below state the same property the code
  has.
* Python `str.split()` splits on Unicode whitespace; the model uses the
  ASCII whitespace characters, which is exact on ASCII text.
* Python `str.lower()` / `str.capitalize()` are modelled per character by
  `Char.toLower` / `Char.toUpper`, the basic-latin case maps, again exact
  on ASCII text.
-/

namespace PDFRename

/-- ASCII whitespace, the characters Python `str.split()` and `str.strip()`
treat as separators on ASCII text. -/
def pyIsSpace (c : Char) : Bool :=
  c = ' ' || c = '\t' || c = '\n' || c = '\r' || c = '\x0b' || c = '\x0c'

/-- Python `s.strip(chars)`: drop the characters satisfying `p` from both
ends. -/
def pyStripP (p : Char → Bool) (l : List Char) : List Char :=
  ((l.dropWhile p).reverse.dropWhile p).reverse

/-- Python `s.strip()`: drop leading and trailing whitespace. -/
def pyStrip (l : List Char) : List Char := pyStripP pyIsSpace l

/-- Python `s.replace(a, b)` for single characters. -/
def pyReplaceChar (a b : Char) (l : List Char) : List Char :=
  l.map (fun c => if c = a then b else c)

/-- The accumulator loop behind `words`; `cur` is the current word,
reversed.  Structured this way so that it computes by kernel reduction;
the `takeWhile`/`dropWhile` characterization is proved below. -/
def wordsGo (cur : List Char) : List Char → List (List Char)
  | [] => if cur.isEmpty then [] else [cur.reverse]
  | c :: cs =>
    if pyIsSpace c then
      if cur.isEmpty then wordsGo [] cs else cur.reverse :: wordsGo [] cs
    else wordsGo (c :: cur) cs

/-- Python `s.split()` (no argument): the maximal whitespace-free words of
`s`, in order, with empties dropped. -/
def words (l : List Char) : List (List Char) := wordsGo [] l

/-- Python `s.capitalize()`: first character upper-cased, the rest
lower-cased. -/
def pyCapitalize : List Char → List Char
  | [] => []
  | c :: cs => Char.toUpper c :: cs.map Char.toLower

/-- Python `s.lower()`, character by character. -/
def pyLower (l : List Char) : List Char := l.map Char.toLower

/-- Python exceptions that the modelled code can raise. -/
inductive PyErr where
  | valueError (msg : String)
  | requestException (msg : String)
  | indexError
  | ioError (msg : String)
deriving DecidableEq, Repr

/-- The five naming styles of `NamingStyle` in `config.py` /
`src/config/settings.py`. -/
inductive NamingStyle where
  | snakeCase
  | kebabCase
  | camelCase
  | pascalCase
  | spaceSeparated
deriving DecidableEq, Repr

namespace TextProcessor

/-- The default `TITLE_MAX_LENGTH` of `NamingConfig`. -/
def TITLE_MAX_LENGTH : Nat := 200

/-- The default `TITLE_MIN_LENGTH` of `NamingConfig`. -/
def TITLE_MIN_LENGTH : Nat := 10

/-- Membership in the allow-list of the regex
`[^a-zA-Z0-9\-_\.]+` built from `PRESERVE_CHARS = "-_."` in
`sanitize_filename` (`src/utils/text_processor.py`). -/
def allowedChar (c : Char) : Bool :=
  ('a' ≤ c && c ≤ 'z') || ('A' ≤ c && c ≤ 'Z') || ('0' ≤ c && c ≤ '9') ||
    c = '-' || c = '_' || c = '.'

/-- `re.sub(r"[^a-zA-Z0-9\-_\.]+", " ", text)`, modelled character by
character; the run-collapsing `+` is invisible because the code collapses
whitespace immediately afterwards. -/
def removeSpecial (l : List Char) : List Char :=
  l.map (fun c => if allowedChar c then c else ' ')

/-- `" ".join(text.split())`. -/
def collapseWs (l : List Char) : List Char :=
  List.intercalate [' '] (words l)

/-- `text[:n].rsplit(" ", 1)[0]`: the part of the `n`-prefix before its
last space, or the whole prefix when it has no space. -/
def beforeLastSpace : List Char → Option (List Char)
  | [] => none
  | c :: cs =>
    match beforeLastSpace cs with
    | some r => some (c :: r)
    | none => if c = ' ' then some [] else none

/-- The word-preserving truncation step of `sanitize_filename`:
`text[:maxLen].rsplit(" ", 1)[0]` followed by `.strip()`. -/
def truncateWords (maxLen : Nat) (l : List Char) : List Char :=
  let pre := l.take maxLen
  pyStrip ((beforeLastSpace pre).getD pre)

/-- Python `s.ljust(n, "_")`. -/
def ljustUnderscore (n : Nat) (l : List Char) : List Char :=
  l ++ List.replicate (n - l.length) '_'

/-- `sanitize_filename` from `src/utils/text_processor.py`, under the
default configuration (`REMOVE_SPECIAL_CHARS = True`,
`PRESERVE_CHARS = "-_."`), over `List Char`; NFKD normalization is the
identity as explained in the header. -/
def sanitizeCore (maxLen minLen : Nat) (l : List Char) : List Char :=
  let l := removeSpecial l
  let l := collapseWs l
  let l := if maxLen < l.length then truncateWords maxLen l else l
  if l.length < minLen then ljustUnderscore minLen l else l

/-- `sanitize_filename` on `String`, at the default length configuration. -/
def sanitize_filename (s : String) : String :=
  String.mk (sanitizeCore TITLE_MAX_LENGTH TITLE_MIN_LENGTH s.toList)

/-- The tokenization step of `format_text_by_style`:
`text.replace("-", " ").replace("_", " ").replace(".", " ").split()`. -/
def tokenize (l : List Char) : List (List Char) :=
  words (pyReplaceChar '.' ' ' (pyReplaceChar '_' ' ' (pyReplaceChar '-' ' ' l)))

/-- `format_text_by_style` from `src/utils/text_processor.py`, over
`List Char`.  The `camelCase` arm indexes `parts[0]` unguarded, which in
Python raises `IndexError` on an empty token list; that outcome is the
`.error .indexError` branch. -/
def formatCore (style : NamingStyle) (l : List Char) : Except PyErr (List Char) :=
  let parts := tokenize l
  match style with
  | .snakeCase => .ok (pyLower (List.intercalate ['_'] parts))
  | .kebabCase => .ok (pyLower (List.intercalate ['-'] parts))
  | .camelCase =>
    match parts with
    | [] => .error .indexError
    | p :: rest => .ok (pyLower p ++ (rest.map pyCapitalize).flatten)
  | .pascalCase => .ok ((parts.map pyCapitalize).flatten)
  | .spaceSeparated => .ok (List.intercalate [' '] parts)

/-- `format_text_by_style` on `String`. -/
def format_text_by_style (style : NamingStyle) (s : String) : Except PyErr String :=
  (formatCore style s.toList).map String.mk

end TextProcessor

/-- The file system: an association list from absolute path to an abstract
content tag.  Directories are not tracked (`os.makedirs` is a no-op in the
model). -/
abbrev FS := List (String × Nat)

/-- `os.path.exists` / content lookup. -/
def FS.lookup : FS → String → Option Nat
  | [], _ => none
  | (p, c) :: rest, q => if p = q then some c else FS.lookup rest q

/-- `os.rename(old, new)` (POSIX semantics: replaces `new` if present).
When `old` is absent the Python call raises; callers model that case
themselves. -/
def FS.rename (fs : FS) (old new : String) : FS :=
  match fs.lookup old with
  | none => fs
  | some c => (new, c) :: (fs.filter (fun e => e.1 != old)).filter (fun e => e.1 != new)

/-- `os.path.basename` for POSIX paths: the part after the last slash. -/
def basenameCore (p : List Char) : List Char :=
  (p.reverse.takeWhile (fun c => c ≠ '/')).reverse

/-- `os.path.basename` on `String`. -/
def basename (p : String) : String := String.mk (basenameCore p.toList)

/-- `os.path.dirname` for POSIX paths: the part before the last slash,
with trailing slashes stripped unless the result is all slashes. -/
def dirnameCore (p : List Char) : List Char :=
  let head := p.take (p.length - (basenameCore p).length)
  if head.all (fun c => c = '/') then head
  else (head.reverse.dropWhile (fun c => c = '/')).reverse

/-- `os.path.dirname` on `String`. -/
def dirname (p : String) : String := String.mk (dirnameCore p.toList)

/-- `os.path.join(a, b)` for POSIX paths (two arguments). -/
def pathJoinCore (a b : List Char) : List Char :=
  if b.head? = some '/' then b
  else if a = [] || a.getLast? = some '/' then a ++ b
  else a ++ '/' :: b

/-- `os.path.join` on `String`. -/
def pathJoin (a b : String) : String := String.mk (pathJoinCore a.toList b.toList)

/-- The extension component of `os.path.splitext`: from the last dot of
the basename, provided that dot is not among the basename's leading
dots. -/
def splitextExtCore (p : List Char) : List Char :=
  let b := basenameCore p
  let core := b.dropWhile (fun c => c = '.')
  let afterDot := core.reverse.takeWhile (fun c => c ≠ '.')
  if afterDot.length < core.length then '.' :: afterDot.reverse else []

/-- `os.path.splitext(p)[1]` on `String`. -/
def splitext_ext (p : String) : String := String.mk (splitextExtCore p.toList)

namespace Settings

/-- The `TEMPLATES` mapping of `NamingConfig` (`src/config/settings.py`),
identical to `Config.NAMING_TEMPLATES` in `config.py`.  Python dicts
preserve insertion order; an association list models the fixed literal. -/
def NAMING_TEMPLATES : List (String × String) :=
  [("research", "{authors}-{year}-{title}"),
   ("document", "{date}-{title}"),
   ("report", "{category}-{date}-{title}"),
   ("custom", "{title}")]

/-- Dictionary lookup in the template mapping (`dict.get`). -/
def lookupTemplate : List (String × String) → String → Option String
  | [], _ => none
  | (k, v) :: rest, q => if k = q then some v else lookupTemplate rest q

/-- `Settings.get_naming_template` (`src/config/settings.py`), also
`Config.get_naming_template` (`config.py`): `template_name or DEFAULT`
then `TEMPLATES.get(name, TEMPLATES["custom"])`.  A `None` argument and
an empty-string argument are both falsy in Python, hence both select the
configured default name. -/
def get_naming_template (defaultTemplate : String) (templateName : Option String) : String :=
  let name :=
    match templateName with
    | none => defaultTemplate
    | some s => if s = "" then defaultTemplate else s
  match lookupTemplate NAMING_TEMPLATES name with
  | some t => t
  | none => (lookupTemplate NAMING_TEMPLATES "custom").getD ""

end Settings

/-- Parsed JSON values, as produced by `response.json()`. -/
inductive Json where
  | null
  | bool (b : Bool)
  | num (n : Int)
  | str (s : String)
  | arr (elems : List Json)
  | obj (fields : List (String × Json))

/-- Python truthiness of a JSON value. -/
def Json.truthy : Json → Bool
  | .null => false
  | .bool b => b
  | .num n => n != 0
  | .str s => s != ""
  | .arr l => !l.isEmpty
  | .obj f => !f.isEmpty

/-- Field lookup in a JSON object literal. -/
def lookupField : List (String × Json) → String → Option Json
  | [], _ => none
  | (k, v) :: rest, q => if k = q then some v else lookupField rest q

/-- `j[key]` for an object; any other shape raises in Python, which the
enclosing `try` of `_parse_response` converts to `None` — hence `none`
here. -/
def Json.get : Json → String → Option Json
  | .obj fields, key => lookupField fields key
  | _, _ => none

/-- `j[i]` for an array; any other shape or an out-of-range index raises,
which the enclosing `try` converts to `None`. -/
def Json.index : Json → Nat → Option Json
  | .arr l, i => l.get? i
  | _, _ => none

/-- The string content of a JSON value; calling `.strip()` on a
non-string raises, which the enclosing `try` converts to `None`. -/
def Json.asStr : Json → Option String
  | .str s => some s
  | _ => none

namespace TitleGenerator

/-- An HTTP response as the title generator observes it: status code and
parsed JSON body. -/
structure HttpResponse where
  status : Nat
  body : Json

/-- `TitleGenerator._parse_response` (`src/services/title_generator.py`):
guarded access to `candidates[0]["content"]["parts"][0]["text"]`, then
`.strip()` and `sanitize_filename`; every failure inside the `try` block
yields `None`. -/
def _parse_response (j : Json) : Option String :=
  match j.get "candidates" with
  | none => none
  | some cands =>
    if cands.truthy then
      (do
        let c0 ← cands.index 0
        let content ← c0.get "content"
        let parts ← content.get "parts"
        let p0 ← parts.index 0
        let t ← p0.get "text"
        let s ← t.asStr
        pure (TextProcessor.sanitize_filename (String.mk (pyStrip s.toList))))
    else none

/-- `TitleGenerator._create_prompt`. -/
def _create_prompt (defaultTemplate : String) (text : String)
    (templateName : Option String) : String :=
  let template := Settings.get_naming_template defaultTemplate templateName
  "Suggest a title for the following document content in its original language using " ++
    "the template: " ++ template ++ ". For research papers, extract author names, year, " ++
    "and title. For multiple authors, use et.al after the first author:\n\n" ++ text

/-- Which exceptions `retry_on_api_error` catches
(`except requests.RequestException`). -/
def isRequestException : PyErr → Bool
  | .requestException _ => true
  | _ => false

/-- The body of `TitleGenerator.generate_title`, one attempt: raises
`ValueError` when the API key is unset, posts the prompt, raises
`RequestException` on a non-200 status, otherwise parses the body and
returns the title when truthy, `None` otherwise. -/
def generateTitleBody (apiKey : String) (resp : HttpResponse) : Except PyErr (Option String) :=
  if apiKey = "" then .error (.valueError "Gemini API key not configured")
  else if resp.status ≠ 200 then
    .error (.requestException ("API request failed with status " ++ toString resp.status))
  else
    match _parse_response resp.body with
    | some title => if title = "" then .ok none else .ok (some title)
    | none => .ok none

/-- The loop of the `retry_on_api_error` decorator: `fuel` is
`MAX_RETRIES - retries`, `i` numbers the invocations.  When the loop
guard fails without any attempt (`MAX_RETRIES = 0`) Python falls off the
function and returns `None`. -/
def retryApiGo (f : Nat → Except PyErr (Option String)) :
    Nat → Nat → Except PyErr (Option String)
  | 0, _ => .ok none
  | fuel + 1, i =>
    match f i with
    | .ok v => .ok v
    | .error e =>
      if isRequestException e then
        match fuel with
        | 0 => .error e
        | _ + 1 => retryApiGo f fuel (i + 1)
      else .error e

/-- The `retry_on_api_error` decorator (`src/services/title_generator.py`):
retries only on `requests.RequestException`, at most `MAX_RETRIES`
attempts, re-raising the last exception when `retries == MAX_RETRIES`. -/
def retry_on_api_error (maxRetries : Nat)
    (f : Nat → Except PyErr (Option String)) : Except PyErr (Option String) :=
  retryApiGo f maxRetries 0

/-- `TitleGenerator.generate_title`, decorated: the HTTP endpoint is the
oracle `responses`, mapping the posted prompt and the attempt number to a
response. -/
def generate_title (defaultTemplate apiKey : String) (maxRetries : Nat)
    (responses : String → Nat → HttpResponse) (text : String)
    (templateName : Option String) : Except PyErr (Option String) :=
  let prompt := _create_prompt defaultTemplate text templateName
  retry_on_api_error maxRetries (fun i => generateTitleBody apiKey (responses prompt i))

end TitleGenerator

namespace OCR

/-- One PDF page, as the OCR service observes it: the text layer returned
by `page.get_text()`, and what `pytesseract.image_to_string` returns on
the page's rendered pixmap (an engine failure, converted to `""` by the
`except` clause of `extract_text_from_image`, is the `ocrText = ""`
case). -/
structure Page where
  getText : String
  ocrText : String

/-- `OCRService.extract_text_from_pdf_page`: `page.get_text().strip()`. -/
def extract_text_from_pdf_page (p : Page) : String :=
  String.mk (pyStrip p.getText.toList)

/-- `OCRService.extract_text_from_image` on the page's rendered image:
`pytesseract.image_to_string(image).strip()`. -/
def extract_text_from_image (p : Page) : String :=
  String.mk (pyStrip p.ocrText.toList)

/-- `OCRService.extract_text_from_page` (`src/services/ocr.py`), with an
instrumentation flag recording whether the OCR fallback branch ran. -/
def extract_text_from_page (minTextLength : Nat) (p : Page) : String × Bool :=
  let text := extract_text_from_pdf_page p
  if text.length < minTextLength then (extract_text_from_image p, true)
  else (text, false)

/-- `OCRService.extract_text_from_first_page`: `none` covers both a
failing `fitz.open` and an empty document. -/
def extract_text_from_first_page (minTextLength : Nat)
    (doc : Option (List Page)) : Option String :=
  match doc with
  | none => none
  | some [] => none
  | some (p :: _) => some (extract_text_from_page minTextLength p).1

end OCR

namespace Utils

/-- `invalid_chars = '<>:"/\\|?*'` in `utils.sanitize_filename`. -/
def INVALID_CHARS : List Char := ['<', '>', ':', '"', '/', '\\', '|', '?', '*']

/-- The replacement loop `for char in invalid_chars: filename =
filename.replace(char, "_")`. -/
def replaceInvalid (l : List Char) : List Char :=
  INVALID_CHARS.foldl (fun acc c => pyReplaceChar c '_' acc) l

/-- The Hebrew range test `"֐" <= c <= "׿"`. -/
def isHebrew (c : Char) : Bool := '֐' ≤ c && c ≤ '׿'

/-- Python `s.strip("_")`. -/
def stripUnderscore (l : List Char) : List Char :=
  pyStripP (fun c => c = '_') l

/-- `config.TITLE_MAX_LENGTH`, the default `max_length`. -/
def TITLE_MAX_LENGTH : Nat := 200

/-- The value after the first two steps of `utils.sanitize_filename`:
`"_".join(filter(None, filename.split()))` applied to the
invalid-character-replaced text; named so the proofs can speak about it. -/
def joinedWords (l : List Char) : List Char :=
  List.intercalate ['_'] ((words (replaceInvalid l)).filter (fun w => !w.isEmpty))

/-- `sanitize_filename` from `utils.py` over `List Char`: replace invalid
characters with underscores, join the whitespace-split words with
underscores, reverse the word order when the text contains Hebrew,
truncate at a word boundary above `maxLen`, and strip outer
underscores. -/
def sanitizeCore (maxLen : Nat) (l : List Char) : List Char :=
  let l := replaceInvalid l
  let l := List.intercalate ['_'] ((words l).filter (fun w => !w.isEmpty))
  let l := if l.any isHebrew then List.intercalate ['_'] ((l.splitOn '_').reverse) else l
  let l := if maxLen < l.length then
      List.intercalate ['_'] ((l.take maxLen).splitOn '_').dropLast
    else l
  stripUnderscore l

/-- `utils.sanitize_filename` on `String`, at the default length. -/
def sanitize_filename (s : String) : String :=
  String.mk (sanitizeCore TITLE_MAX_LENGTH s.toList)

/-- The loop of `utils.retry_on_exception`: `fuel` is
`max_retries - retries`, `i` numbers the invocations, `curDelay` the
current sleep.  Returns the outcome, the total number of invocations of
the wrapped function, and the sleep delays in order. -/
def retryGo {E A : Type} (op : Nat → Except E A) (backoff : Nat) :
    Nat → Nat → Nat → Except E A × Nat × List Nat
  | i, _, 0 =>
    match op i with
    | .ok a => (.ok a, i + 1, [])
    | .error e => (.error e, i + 1, [])
  | i, curDelay, fuel + 1 =>
    match op i with
    | .ok a => (.ok a, i + 1, [])
    | .error _ =>
      let r := retryGo op backoff (i + 1) (curDelay * backoff) fuel
      (r.1, r.2.1, curDelay :: r.2.2)

/-- `utils.retry_on_exception` (the decorator of `utils.py`): the wrapped
call is retried on each listed exception — `op` returning `.error`
models such a raise — with an extra attempt per retry, sleeping
`delay * backoff ^ attempts` between attempts, and re-raising after
`max_retries` retries are exhausted. -/
def retry_on_exception {E A : Type} (maxRetries delay backoff : Nat)
    (op : Nat → Except E A) : Except E A × Nat × List Nat :=
  retryGo op backoff 0 delay maxRetries

/-- `utils.create_backup`: no `try/except` in this variant, so a failing
copy raises to the caller; the backup name carries the
`%Y%m%d_%H%M%S`-formatted timestamp, supplied here as an oracle since it
reads the wall clock. -/
def create_backup (enabled : Bool) (backupDir timestamp : String) (fs : FS)
    (path : String) : Except PyErr (Option String) × FS :=
  if !enabled then (.ok none, fs)
  else
    let bp := pathJoin (pathJoin (dirname path) backupDir)
        (basename path ++ "." ++ timestamp ++ ".bak")
    match fs.lookup path with
    | none => (.error (.ioError "copy2: No such file or directory"), fs)
    | some c => (.ok (some bp), (bp, c) :: fs.filter (fun e => e.1 != bp))

end Utils

namespace Processor

/-- The backup destination `os.path.join(dirname, BACKUP_DIR,
basename)` of `FileProcessor.create_backup` (`src/core/processor.py`). -/
def backup_path (backupDir path : String) : String :=
  pathJoin (pathJoin (dirname path) backupDir) (basename path)

/-- `FileProcessor.create_backup` (`src/core/processor.py`): disabled →
`None`; a failing `shutil.copy2` is caught and yields `None`; otherwise
the file is copied (overwriting) to the backup path, which is returned.
Note: no timestamp in this variant — the backup keeps the original base
name. -/
def create_backup (enabled : Bool) (backupDir : String) (fs : FS) (path : String) :
    Option String × FS :=
  if !enabled then (none, fs)
  else
    match fs.lookup path with
    | none => (none, fs)
    | some c =>
      let bp := backup_path backupDir path
      (some bp, (bp, c) :: fs.filter (fun e => e.1 != bp))

/-- The process-wide configuration and the external-world oracles a
single `rename_file` call reads. -/
structure Env where
  backupEnabled : Bool
  backupDir : String
  minTextLength : Nat
  defaultTemplate : String
  apiKey : String
  maxRetries : Nat
  style : NamingStyle
  doc : Option (List OCR.Page)
  responses : String → Nat → TitleGenerator.HttpResponse

/-- The `if settings.file.BACKUP_ENABLED: self.create_backup(...)` prefix
of `rename_file`; backup failure never aborts processing. -/
def backup_phase (env : Env) (fs : FS) (path : String) : FS :=
  if env.backupEnabled then (create_backup env.backupEnabled env.backupDir fs path).2
  else fs

/-- `FileProcessor.rename_file` (`src/core/processor.py`): backup, text
extraction, title generation, style formatting, extension re-attachment,
existence check, rename.  The whole body sits in `try/except`, so any
raise from title generation or formatting yields `(None, fs)`; an absent
source at the final `os.rename` likewise. -/
def rename_file (env : Env) (fs : FS) (path : String) (templateName : Option String) :
    Option String × FS :=
  let fs1 := backup_phase env fs path
  match OCR.extract_text_from_first_page env.minTextLength env.doc with
  | none => (none, fs1)
  | some text =>
    if text = "" then (none, fs1)
    else
      match TitleGenerator.generate_title env.defaultTemplate env.apiKey env.maxRetries
          env.responses text templateName with
      | .error _ => (none, fs1)
      | .ok none => (none, fs1)
      | .ok (some title) =>
        if title = "" then (none, fs1)
        else
          match TextProcessor.format_text_by_style env.style title with
          | .error _ => (none, fs1)
          | .ok formatted =>
            let newTitle := formatted ++ splitext_ext path
            let newPath := pathJoin (dirname path) newTitle
            if (fs1.lookup newPath).isSome then (none, fs1)
            else
              match fs1.lookup path with
              | none => (none, fs1)
              | some _ => (some newPath, FS.rename fs1 path newPath)

end Processor

/-! Proof-support predicates. -/

/-- A word as produced by `words`: nonempty and whitespace-free. -/
def OkWord (w : List Char) : Prop := w ≠ [] ∧ ∀ c ∈ w, pyIsSpace c = false

/-- Two adjacent characters are not both whitespace. -/
def SpaceApart (a b : Char) : Prop := ¬(pyIsSpace a = true ∧ pyIsSpace b = true)

/-- No two adjacent whitespace characters anywhere. -/
def NoDouble (t : List Char) : Prop := List.Chain' SpaceApart t

/-- The first character, if any, is not whitespace. -/
def NoLead (t : List Char) : Prop := ∀ c, t.head? = some c → pyIsSpace c = false

/-- The last character, if any, is not whitespace. -/
def NoTrail (t : List Char) : Prop := ∀ c, t.getLast? = some c → pyIsSpace c = false

/-- Every whitespace character is a plain space. -/
def OnlySp (t : List Char) : Prop := ∀ c ∈ t, pyIsSpace c = true → c = ' '

/-- Canonical spacing: the fixed points of `" ".join(x.split())`. -/
def Canon (t : List Char) : Prop := NoLead t ∧ NoTrail t ∧ NoDouble t ∧ OnlySp t

/-- Characters surviving `removeSpecial`: allow-listed or a space. -/
def AllowedOrSpace (t : List Char) : Prop :=
  ∀ c ∈ t, TextProcessor.allowedChar c = true ∨ c = ' '

/-- Free of the three separators `format_text_by_style` tokenizes on. -/
def SepFree (w : List Char) : Prop := ∀ c ∈ w, c ≠ '-' ∧ c ≠ '_' ∧ c ≠ '.'

/-- The composite character map of the tokenizer's three `replace` calls. -/
def sepToSpace (c : Char) : Char := if c = '-' ∨ c = '_' ∨ c = '.' then ' ' else c

/-- Text without Hebrew characters (`utils.sanitize_filename` reverses the
word order otherwise). -/
def NoHebrew (s : String) : Prop := ∀ c ∈ s.toList, Utils.isHebrew c = false

/-! Concrete fixtures for the end-to-end scenario of the spec: the mocked
response body and the default configuration. -/

/-- The mocked response body
`{"candidates":[{"content":{"parts":[{"text":"smith-2023-widgets"}]}}]}`. -/
def scenarioBody : Json :=
  .obj [("candidates", .arr [.obj [("content", .obj [("parts",
    .arr [.obj [("text", .str "smith-2023-widgets")]])])]])]

/-- The scenario's first page: the text layer the spec prescribes (43
characters, hence below the 50-character OCR threshold; the rendered page
OCRs to the same text). -/
def scenarioPage : OCR.Page :=
  ⟨"Authors: A. Smith\nYear: 2023\nTitle: Widgets",
   "Authors: A. Smith\nYear: 2023\nTitle: Widgets"⟩

/-- The default configuration with the scenario's page and mocked
endpoint. -/
def scenarioEnv : Processor.Env where
  backupEnabled := true
  backupDir := ".backup"
  minTextLength := 50
  defaultTemplate := "research"
  apiKey := "test-key"
  maxRetries := 3
  style := .kebabCase
  doc := some [scenarioPage]
  responses := fun _ _ => ⟨200, scenarioBody⟩

/-! Support lemmas on the file-system model. -/

theorem FS.lookup_cons_self (fs : FS) (p : String) (c : Nat) :
    FS.lookup ((p, c) :: fs) p = some c := by
  simp [FS.lookup]

theorem FS.lookup_filter_ne (fs : FS) (bp q : String) (h : q ≠ bp) :
    FS.lookup (fs.filter (fun e => e.1 != bp)) q = FS.lookup fs q := by
  induction fs with
  | nil => rfl
  | cons e rest ih =>
    rcases e with ⟨p, c⟩
    rw [List.filter_cons]
    by_cases he : p = bp
    · subst he
      have hpq : p ≠ q := fun hpq => h hpq.symm
      simp [FS.lookup, hpq, ih]
    · have hb : ((p, c).1 != bp) = true := by simpa using he
      rw [if_pos hb]
      by_cases hq : p = q <;> simp [FS.lookup, hq, ih]

theorem backup_phase_lookup (env : Processor.Env) (fs : FS) (path q : String)
    (h : q ≠ Processor.backup_path env.backupDir path) :
    FS.lookup (Processor.backup_phase env fs path) q = FS.lookup fs q := by
  unfold Processor.backup_phase Processor.create_backup
  cases henv : env.backupEnabled with
  | false => simp
  | true =>
    cases hp : FS.lookup fs path with
    | none => simp [hp]
    | some c => simp [hp, FS.lookup, Ne.symm h, FS.lookup_filter_ne fs _ q h]

/-! The `takeWhile`/`dropWhile` characterization of `words`. -/

theorem wordsGo_acc (cs : List Char) : ∀ acc : List Char, acc ≠ [] →
    wordsGo acc cs = (acc.reverse ++ cs.takeWhile (fun d => !pyIsSpace d)) ::
      wordsGo [] (cs.dropWhile (fun d => !pyIsSpace d)) := by
  induction cs with
  | nil =>
    intro acc h
    simp [wordsGo, h]
  | cons c cs ih =>
    intro acc h
    by_cases hc : pyIsSpace c = true
    · simp [wordsGo, hc, h, List.takeWhile_cons, List.dropWhile_cons]
    · have hc' : pyIsSpace c = false := by simpa using hc
      simp only [wordsGo, hc', Bool.false_eq_true, if_false, List.takeWhile_cons,
        List.dropWhile_cons, Bool.not_false, if_true]
      rw [ih (c :: acc) (by simp)]
      simp

theorem words_nil : words [] = [] := rfl

theorem words_cons_space {c : Char} (cs : List Char) (h : pyIsSpace c = true) :
    words (c :: cs) = words cs := by
  simp [words, wordsGo, h]

theorem words_cons_word {c : Char} (cs : List Char) (h : pyIsSpace c = false) :
    words (c :: cs) = (c :: cs.takeWhile (fun d => !pyIsSpace d)) ::
      words (cs.dropWhile (fun d => !pyIsSpace d)) := by
  show wordsGo [] (c :: cs) = _
  simp only [wordsGo, h, Bool.false_eq_true, if_false]
  simpa [words] using wordsGo_acc cs [c] (by simp)

/-- Every value of `words` is a nonempty whitespace-free word whose
characters come from the input (strong induction on length). -/
theorem words_ok_aux (n : Nat) : ∀ l : List Char, l.length = n →
    ∀ w ∈ words l, OkWord w ∧ ∀ c ∈ w, c ∈ l := by
  induction n using Nat.strong_induction_on with
  | _ n ih =>
    intro l hn
    match l with
    | [] => simp [words_nil]
    | c :: cs =>
      by_cases hc : pyIsSpace c = true
      · rw [words_cons_space cs hc]
        intro w hw
        rcases ih cs.length (by simp [← hn]) cs rfl w hw with ⟨h1, h2⟩
        exact ⟨h1, fun d hd => List.mem_cons_of_mem c (h2 d hd)⟩
      · have hc' : pyIsSpace c = false := by simpa using hc
        rw [words_cons_word cs hc']
        intro w hw
        rcases List.mem_cons.mp hw with rfl | hw'
        · refine ⟨⟨by simp, ?_⟩, ?_⟩
          · intro d hd
            rcases List.mem_cons.mp hd with rfl | hd'
            · exact hc'
            · have := List.mem_takeWhile_imp hd'
              simpa using this
          · intro d hd
            rcases List.mem_cons.mp hd with h' | hd'
            · exact h' ▸ List.mem_cons_self _ cs
            · exact List.mem_cons_of_mem _ ((List.takeWhile_sublist _).mem hd')
        · have hlen : (cs.dropWhile (fun d => !pyIsSpace d)).length < n := by
            have := (List.dropWhile_sublist (l := cs) (fun d => !pyIsSpace d)).length_le
            simp at hn
            omega
          rcases ih _ hlen _ rfl w hw' with ⟨h1, h2⟩
          refine ⟨h1, fun d hd => List.mem_cons_of_mem c
            ((List.dropWhile_sublist _).mem (h2 d hd))⟩

/-- Every value of `words` is a nonempty whitespace-free word whose
characters come from the input. -/
theorem words_ok (l : List Char) : ∀ w ∈ words l, OkWord w ∧ ∀ c ∈ w, c ∈ l :=
  words_ok_aux l.length l rfl

/-- `words` of an all-whitespace list is empty. -/
theorem words_eq_nil_of_all_space {l : List Char}
    (h : ∀ c ∈ l, pyIsSpace c = true) : words l = [] := by
  induction l with
  | nil => rfl
  | cons c cs ih =>
    rw [words_cons_space cs (h c (List.mem_cons_self c cs))]
    exact ih fun d hd => h d (List.mem_cons_of_mem c hd)

/-- The tokenizer of `format_text_by_style` yields no token when the
input has only separators and whitespace. -/
theorem tokenize_nil_of_sep_only (l : List Char)
    (h : ∀ c ∈ l, c = '-' ∨ c = '_' ∨ c = '.' ∨ pyIsSpace c = true) :
    TextProcessor.tokenize l = [] := by
  apply words_eq_nil_of_all_space
  intro c hc
  simp only [pyReplaceChar, List.mem_map] at hc
  obtain ⟨a1, ⟨a2, ⟨a, ha, rfl⟩, rfl⟩, rfl⟩ := hc
  rcases h a ha with rfl | rfl | rfl | hsp
  · decide
  · decide
  · decide
  · have h1 : a ≠ '-' := fun hq => by rw [hq] at hsp; exact absurd hsp (by decide)
    have h2 : a ≠ '_' := fun hq => by rw [hq] at hsp; exact absurd hsp (by decide)
    have h3 : a ≠ '.' := fun hq => by rw [hq] at hsp; exact absurd hsp (by decide)
    simpa [h1, h2, h3] using hsp

/-- C9: on input containing only the separator characters and whitespace
(for example the sanitizer's all-underscore padding of a too-short
title), `format_text_by_style` raises `IndexError` under `camelCase`
(its token list is empty and `parts[0]` is unguarded), while the other
four styles return the empty string. -/
theorem format_separator_only (s : String)
    (h : ∀ c ∈ s.toList, c = '-' ∨ c = '_' ∨ c = '.' ∨ pyIsSpace c = true) :
    TextProcessor.format_text_by_style .camelCase s = .error .indexError ∧
    TextProcessor.format_text_by_style .snakeCase s = .ok "" ∧
    TextProcessor.format_text_by_style .kebabCase s = .ok "" ∧
    TextProcessor.format_text_by_style .pascalCase s = .ok "" ∧
    TextProcessor.format_text_by_style .spaceSeparated s = .ok "" := by
  have ht : TextProcessor.tokenize s.data = [] := tokenize_nil_of_sep_only s.toList h
  refine ⟨?_, ?_, ?_, ?_, ?_⟩ <;>
    simp [TextProcessor.format_text_by_style, TextProcessor.formatCore, ht, pyLower] <;>
    rfl

/-- Witness for C9 at the padding output `sanitize_filename("")`. -/
theorem format_separator_only_witness :
    TextProcessor.sanitize_filename "" = "__________" ∧
    TextProcessor.format_text_by_style .camelCase "__________" = .error .indexError ∧
    TextProcessor.format_text_by_style .snakeCase "__________" = .ok "" ∧
    TextProcessor.format_text_by_style .kebabCase "__________" = .ok "" ∧
    TextProcessor.format_text_by_style .pascalCase "__________" = .ok "" ∧
    TextProcessor.format_text_by_style .spaceSeparated "__________" = .ok "" :=
  ⟨rfl, format_separator_only "__________" (by decide)⟩

/-! The retry wrapper of `utils.py`, characterized. -/

theorem retryGo_success {E A : Type} (op : Nat → Except E A) (b : Nat) (a : A) :
    ∀ (k : Nat) (e : Nat → E) (i d fuel : Nat), k ≤ fuel →
      (∀ j, j < k → op (i + j) = .error (e j)) → op (i + k) = .ok a →
      Utils.retryGo op b i d fuel =
        (.ok a, i + k + 1, (List.range k).map (fun j => d * b ^ j)) := by
  intro k
  induction k with
  | zero =>
    intro e i d fuel _ _ hok
    have h : op i = .ok a := by simpa using hok
    cases fuel <;> simp [Utils.retryGo, h]
  | succ k ihk =>
    intro e i d fuel hk hfail hok
    obtain ⟨f, rfl⟩ : ∃ f, fuel = f + 1 := ⟨fuel - 1, by omega⟩
    have h0 : op i = .error (e 0) := by simpa using hfail 0 (by omega)
    have hrec := ihk (fun j => e (j + 1)) (i + 1) (d * b) f (by omega)
      (fun j hj => by
        rw [show i + 1 + j = i + (j + 1) by omega]
        exact hfail (j + 1) (by omega))
      (by
        rw [show i + 1 + k = i + (k + 1) by omega]
        exact hok)
    simp only [Utils.retryGo, h0, hrec, Prod.mk.injEq]
    refine ⟨trivial, by omega, ?_⟩
    rw [List.range_succ_eq_map, List.map_cons, List.map_map]
    simp [Function.comp, pow_succ, Nat.mul_comm, Nat.mul_assoc, Nat.mul_left_comm]

theorem retryGo_failure {E A : Type} (op : Nat → Except E A) (b : Nat) :
    ∀ (fuel : Nat) (e : Nat → E) (i d : Nat),
      (∀ j, j ≤ fuel → op (i + j) = .error (e j)) →
      Utils.retryGo op b i d fuel =
        (.error (e fuel), i + fuel + 1, (List.range fuel).map (fun j => d * b ^ j)) := by
  intro fuel
  induction fuel with
  | zero =>
    intro e i d h
    have h0 : op i = .error (e 0) := by simpa using h 0 (by omega)
    simp [Utils.retryGo, h0]
  | succ f ihf =>
    intro e i d h
    have h0 : op i = .error (e 0) := by simpa using h 0 (by omega)
    have hrec := ihf (fun j => e (j + 1)) (i + 1) (d * b) (fun j hj => by
      rw [show i + 1 + j = i + (j + 1) by omega]
      exact h (j + 1) (by omega))
    simp only [Utils.retryGo, h0, hrec, Prod.mk.injEq]
    refine ⟨trivial, by omega, ?_⟩
    rw [List.range_succ_eq_map, List.map_cons, List.map_map]
    simp [Function.comp, pow_succ, Nat.mul_comm, Nat.mul_assoc, Nat.mul_left_comm]

/-- C3: `retry_on_exception` returns the success value after exactly
`k + 1` invocations when the wrapped operation fails on exactly its first
`k < max_retries` invocations, sleeping exactly `k` times with delays
`delay * backoff ^ j`; and when the operation fails on every allowed
attempt, the wrapper re-raises the last exception after
`max_retries + 1` invocations. -/
theorem retry_on_exception_spec {E A : Type} (maxRetries delay backoff k : Nat)
    (op : Nat → Except E A) (a : A) (e : Nat → E) :
    (k < maxRetries → (∀ j, j < k → op j = .error (e j)) → op k = .ok a →
      Utils.retry_on_exception maxRetries delay backoff op =
        (.ok a, k + 1, (List.range k).map (fun j => delay * backoff ^ j))) ∧
    ((∀ j, j ≤ maxRetries → op j = .error (e j)) →
      Utils.retry_on_exception maxRetries delay backoff op =
        (.error (e maxRetries), maxRetries + 1,
          (List.range maxRetries).map (fun j => delay * backoff ^ j))) := by
  constructor
  · intro hk hfail hok
    have h := retryGo_success op backoff a k e 0 delay maxRetries (by omega)
      (fun j hj => by simpa using hfail j hj) (by simpa using hok)
    simpa [Utils.retry_on_exception] using h
  · intro hfail
    have h := retryGo_failure op backoff maxRetries e 0 delay
      (fun j hj => by simpa using hfail j hj)
    simpa [Utils.retry_on_exception] using h

/-- Witness for C3: two failures then success under `max_retries = 3`
(three invocations, sleeps `[1, 2]`), and exhaustion under
`max_retries = 2` (three invocations, sleeps `[5, 15]`, exception
re-raised). -/
theorem retry_on_exception_spec_witness :
    Utils.retry_on_exception 3 1 2
      (fun i => if i < 2 then (.error "boom" : Except String Nat) else .ok 42) =
      (.ok 42, 3, [1, 2]) ∧
    Utils.retry_on_exception 2 5 3 (fun _ => (.error "boom" : Except String Nat)) =
      (.error "boom", 3, [5, 15]) := by
  constructor
  · exact ((retry_on_exception_spec 3 1 2 2
      (fun i => if i < 2 then (.error "boom" : Except String Nat) else .ok 42) 42
      (fun _ => "boom")).1 (by omega)
      (fun j hj => by interval_cases j <;> rfl) (by rfl)).trans (by rfl)
  · exact ((retry_on_exception_spec 2 5 3 0
      (fun _ => (.error "boom" : Except String Nat)) 0
      (fun _ => "boom")).2 (fun j _ => rfl)).trans (by rfl)

/-- C7 counterexample: with the API key unset `generate_title` raises
`ValueError` to its caller (the decorator only catches request
exceptions), and with every response non-200 it re-raises the request
exception once retries are exhausted — in neither case does it return
`None`/empty. -/
theorem generate_title_raises :
    TitleGenerator.generate_title "research" "" 3 (fun _ _ => ⟨200, scenarioBody⟩)
      "doc text" none = .error (.valueError "Gemini API key not configured") ∧
    TitleGenerator.generate_title "research" "key" 3 (fun _ _ => ⟨500, .obj []⟩)
      "doc text" none =
      .error (.requestException "API request failed with status 500") :=
  ⟨rfl, rfl⟩

theorem retryApiGo_succ_eq (f : Nat → Except PyErr (Option String)) (fuel i : Nat) :
    TitleGenerator.retryApiGo f (fuel + 1) i =
      match f i with
      | .ok v => .ok v
      | .error e =>
        if TitleGenerator.isRequestException e then
          match fuel with
          | 0 => .error e
          | _ + 1 => TitleGenerator.retryApiGo f fuel (i + 1)
        else .error e := rfl

theorem retryApiGo_all_fail (f : Nat → Except PyErr (Option String)) (r : Nat → String)
    (hf : ∀ j, f j = .error (.requestException (r j))) :
    ∀ fuel i, TitleGenerator.retryApiGo f (fuel + 1) i =
      .error (.requestException (r (i + fuel))) := by
  intro fuel
  induction fuel with
  | zero =>
    intro i
    rw [retryApiGo_succ_eq, hf i]
    simp [TitleGenerator.isRequestException]
  | succ f' ihf =>
    intro i
    rw [retryApiGo_succ_eq, hf i]
    simp only [TitleGenerator.isRequestException, if_true]
    rw [ihf (i + 1), show i + 1 + f' = i + (f' + 1) by omega]

/-- C7 amended: with at least one allowed attempt, `generate_title`
raises `ValueError` when the API key is unset and re-raises the request
exception when every response is non-200 and retries are exhausted; only
a 200 response whose body lacks the expected
candidates/content/parts/text shape makes it return `None` without
raising.  (`rename_file` catches the raises and skips the file.) -/
theorem generate_title_failure_modes (dflt text : String) (tn : Option String)
    (responses : String → Nat → TitleGenerator.HttpResponse) (m : Nat) :
    (TitleGenerator.generate_title dflt "" (m + 1) responses text tn =
      .error (.valueError "Gemini API key not configured")) ∧
    (∀ apiKey, apiKey ≠ "" →
      (responses (TitleGenerator._create_prompt dflt text tn) 0).status = 200 →
      TitleGenerator._parse_response
        (responses (TitleGenerator._create_prompt dflt text tn) 0).body = none →
      TitleGenerator.generate_title dflt apiKey (m + 1) responses text tn = .ok none) ∧
    (∀ apiKey s, apiKey ≠ "" → s ≠ 200 →
      (∀ i, (responses (TitleGenerator._create_prompt dflt text tn) i).status = s) →
      TitleGenerator.generate_title dflt apiKey (m + 1) responses text tn =
        .error (.requestException ("API request failed with status " ++ toString s))) := by
  refine ⟨?_, fun apiKey hk h200 hparse => ?_, fun apiKey s hk hs hst => ?_⟩
  · simp [TitleGenerator.generate_title, TitleGenerator.retry_on_api_error,
      TitleGenerator.retryApiGo, TitleGenerator.generateTitleBody,
      TitleGenerator.isRequestException]
  · simp [TitleGenerator.generate_title, TitleGenerator.retry_on_api_error,
      TitleGenerator.retryApiGo, TitleGenerator.generateTitleBody, hk, h200, hparse]
  · have hbody : ∀ i, TitleGenerator.generateTitleBody apiKey
        (responses (TitleGenerator._create_prompt dflt text tn) i) =
        .error (.requestException ("API request failed with status " ++ toString s)) := by
      intro i
      simp [TitleGenerator.generateTitleBody, hk, hst i, hs]
    exact retryApiGo_all_fail _ (fun _ => "API request failed with status " ++ toString s)
      hbody m 0

/-- Witness for C7's amended statement: concrete unset-key, malformed-body
and exhausted-retries runs. -/
theorem generate_title_failure_modes_witness :
    TitleGenerator.generate_title "research" "" 3 (fun _ _ => ⟨200, .obj []⟩)
      "text" none = .error (.valueError "Gemini API key not configured") ∧
    TitleGenerator.generate_title "research" "key" 3 (fun _ _ => ⟨200, .obj []⟩)
      "text" none = .ok none ∧
    TitleGenerator.generate_title "research" "key" 3 (fun _ _ => ⟨503, .obj []⟩)
      "text" none =
      .error (.requestException "API request failed with status 503") := by
  have h := generate_title_failure_modes "research" "text" none
  refine ⟨?_, ?_, ?_⟩
  · exact (h (fun _ _ => ⟨200, .obj []⟩) 2).1
  · exact (h (fun _ _ => ⟨200, .obj []⟩) 2).2.1 "key" (by decide) rfl rfl
  · exact (h (fun _ _ => ⟨503, .obj []⟩) 2).2.2 "key" 503 (by decide) (by decide)
      (fun _ => rfl)

/-- C8 counterexample: the maintained `FileProcessor.create_backup`
(`src/core/processor.py`) copies under the unmodified base name — the
backup of `/docs/a.pdf` is `/docs/.backup/a.pdf`, whose file name equals
the original base name rather than extending it with a timestamp. -/
theorem create_backup_no_timestamp :
    Processor.create_backup true ".backup" [("/docs/a.pdf", 1)] "/docs/a.pdf" =
      (some "/docs/.backup/a.pdf",
        [("/docs/.backup/a.pdf", 1), ("/docs/a.pdf", 1)]) ∧
    basename "/docs/.backup/a.pdf" = basename "/docs/a.pdf" :=
  ⟨rfl, rfl⟩

/-- C8 amended: with backup enabled and the source present, the legacy
`utils.create_backup` copies into the sibling backup directory under the
base name extended with the timestamp suffix `.{ts}.bak` and returns
that path; the maintained `FileProcessor.create_backup` copies into the
same sibling directory but under the unmodified base name, returning
that path. -/
theorem create_backup_spec (backupDir ts path : String) (fs : FS) (c : Nat)
    (hmem : fs.lookup path = some c) :
    (Utils.create_backup true backupDir ts fs path).1 =
      .ok (some (pathJoin (pathJoin (dirname path) backupDir)
        (basename path ++ "." ++ ts ++ ".bak"))) ∧
    FS.lookup (Utils.create_backup true backupDir ts fs path).2
      (pathJoin (pathJoin (dirname path) backupDir)
        (basename path ++ "." ++ ts ++ ".bak")) = some c ∧
    (Processor.create_backup true backupDir fs path).1 =
      some (Processor.backup_path backupDir path) ∧
    FS.lookup (Processor.create_backup true backupDir fs path).2
      (Processor.backup_path backupDir path) = some c := by
  refine ⟨?_, ?_, ?_, ?_⟩ <;>
    simp [Utils.create_backup, Processor.create_backup, hmem, FS.lookup]

/-- Witness for C8's amended statement at a concrete file system. -/
theorem create_backup_spec_witness :
    (Utils.create_backup true ".backup" "20240101_120000" [("/d/a.pdf", 3)] "/d/a.pdf").1 =
      .ok (some "/d/.backup/a.pdf.20240101_120000.bak") ∧
    (Processor.create_backup true ".backup" [("/d/a.pdf", 3)] "/d/a.pdf").1 =
      some "/d/.backup/a.pdf" := by
  have h := create_backup_spec ".backup" "20240101_120000" "/d/a.pdf"
    [("/d/a.pdf", 3)] 3 rfl
  exact ⟨h.1.trans (by rfl), h.2.2.1.trans (by rfl)⟩

/-- C6: `extract_text_from_page` invokes the OCR fallback and returns its
result exactly when the directly extracted (stripped) page text is
shorter than the configured minimum text length; otherwise it returns the
direct text and OCR never runs. -/
theorem extract_ocr_fallback_iff (minLen : Nat) (p : OCR.Page) :
    ((OCR.extract_text_from_pdf_page p).length < minLen →
      OCR.extract_text_from_page minLen p = (OCR.extract_text_from_image p, true)) ∧
    (minLen ≤ (OCR.extract_text_from_pdf_page p).length →
      OCR.extract_text_from_page minLen p = (OCR.extract_text_from_pdf_page p, false)) := by
  refine ⟨fun h => ?_, fun h => ?_⟩
  · simp [OCR.extract_text_from_page, h]
  · simp [OCR.extract_text_from_page, Nat.not_lt.mpr h]

/-- Witness for C6: a 2-character page under threshold 5 goes through
OCR; a 3-character page under threshold 2 does not. -/
theorem extract_ocr_fallback_iff_witness :
    OCR.extract_text_from_page 5 ⟨"ab", "ocr text"⟩ = ("ocr text", true) ∧
    OCR.extract_text_from_page 2 ⟨"abc", "ocr text"⟩ = ("abc", false) := by
  refine ⟨?_, ?_⟩
  · exact ((extract_ocr_fallback_iff 5 ⟨"ab", "ocr text"⟩).1 (by decide)).trans (by rfl)
  · exact ((extract_ocr_fallback_iff 2 ⟨"abc", "ocr text"⟩).2 (by decide)).trans (by rfl)

/-- C10: template lookup distinguishes absent from unrecognized names: a
`None`/empty template name yields the template registered under the
configured default name, while a non-empty unknown name yields the
`"custom"` template `"{title}"`, which differs from the configured
default's template. -/
theorem get_naming_template_distinguishes :
    (∀ d t, Settings.lookupTemplate Settings.NAMING_TEMPLATES d = some t →
      Settings.get_naming_template d none = t ∧
      Settings.get_naming_template d (some "") = t) ∧
    (∀ d s, s ≠ "" → Settings.lookupTemplate Settings.NAMING_TEMPLATES s = none →
      Settings.get_naming_template d (some s) = "{title}") ∧
    Settings.get_naming_template "research" (some "unknown") ≠
      Settings.get_naming_template "research" none := by
  refine ⟨fun d t h => ⟨?_, ?_⟩, fun d s hs hn => ?_, by decide⟩
  · simp [Settings.get_naming_template, h]
  · simp [Settings.get_naming_template, h]
  · simp [Settings.get_naming_template, hs, hn]
    decide

/-- Witness for C10 at the default configuration. -/
theorem get_naming_template_distinguishes_witness :
    Settings.get_naming_template "research" none = "{authors}-{year}-{title}" ∧
    Settings.get_naming_template "research" (some "nope") = "{title}" := by
  refine ⟨?_, ?_⟩
  · exact (get_naming_template_distinguishes.1 "research" "{authors}-{year}-{title}"
      (by decide)).1
  · exact get_naming_template_distinguishes.2.1 "research" "nope" (by decide) (by decide)

/-- C1: when the computed destination path already exists on the file
system, `rename_file` performs no rename — the post-backup state is
returned unchanged, so the original keeps its name and content and the
existing destination is never overwritten — and returns no new path, so
the caller's result mapping gains no entry.  (The enabled-by-default
backup copy, at its distinct backup path, is the only possible
file-system change.) -/
theorem rename_file_existing_destination (env : Processor.Env) (fs : FS)
    (path : String) (tn : Option String) (text title formatted : String)
    (hex : OCR.extract_text_from_first_page env.minTextLength env.doc = some text)
    (htext : text ≠ "")
    (hgen : TitleGenerator.generate_title env.defaultTemplate env.apiKey env.maxRetries
      env.responses text tn = .ok (some title))
    (htitle : title ≠ "")
    (hfmt : TextProcessor.format_text_by_style env.style title = .ok formatted)
    (hbp_path : Processor.backup_path env.backupDir path ≠ path)
    (hbp_dest : Processor.backup_path env.backupDir path ≠
      pathJoin (dirname path) (formatted ++ splitext_ext path))
    (hdest : fs.lookup (pathJoin (dirname path) (formatted ++ splitext_ext path)) ≠ none) :
    Processor.rename_file env fs path tn = (none, Processor.backup_phase env fs path) ∧
    FS.lookup (Processor.rename_file env fs path tn).2 path = fs.lookup path ∧
    FS.lookup (Processor.rename_file env fs path tn).2
      (pathJoin (dirname path) (formatted ++ splitext_ext path)) =
      fs.lookup (pathJoin (dirname path) (formatted ++ splitext_ext path)) := by
  have hfs1d : FS.lookup (Processor.backup_phase env fs path)
      (pathJoin (dirname path) (formatted ++ splitext_ext path)) =
      fs.lookup (pathJoin (dirname path) (formatted ++ splitext_ext path)) :=
    backup_phase_lookup env fs path _ (Ne.symm hbp_dest)
  have hguard : (FS.lookup (Processor.backup_phase env fs path)
      (pathJoin (dirname path) (formatted ++ splitext_ext path))).isSome = true := by
    rw [hfs1d]
    exact Option.isSome_iff_ne_none.mpr hdest
  have hmain : Processor.rename_file env fs path tn =
      (none, Processor.backup_phase env fs path) := by
    unfold Processor.rename_file
    rw [hex]
    simp [htext, hgen, htitle, hfmt, hguard]
  refine ⟨hmain, ?_, ?_⟩
  · rw [hmain]
    exact backup_phase_lookup env fs path path (Ne.symm hbp_path)
  · rw [hmain]
    exact hfs1d

/-- Witness for C1: the end-to-end environment, with the destination
`/docs/smith-2023-widgets.pdf` already present: no rename, `None`
returned, both entries untouched. -/
theorem rename_file_existing_destination_witness :
    (Processor.rename_file scenarioEnv
      [("/docs/doc.pdf", 1), ("/docs/smith-2023-widgets.pdf", 2)] "/docs/doc.pdf" none).1 =
      none ∧
    FS.lookup (Processor.rename_file scenarioEnv
      [("/docs/doc.pdf", 1), ("/docs/smith-2023-widgets.pdf", 2)]
      "/docs/doc.pdf" none).2 "/docs/doc.pdf" = some 1 ∧
    FS.lookup (Processor.rename_file scenarioEnv
      [("/docs/doc.pdf", 1), ("/docs/smith-2023-widgets.pdf", 2)]
      "/docs/doc.pdf" none).2 "/docs/smith-2023-widgets.pdf" = some 2 := by
  have h := rename_file_existing_destination scenarioEnv
    [("/docs/doc.pdf", 1), ("/docs/smith-2023-widgets.pdf", 2)] "/docs/doc.pdf" none
    "Authors: A. Smith\nYear: 2023\nTitle: Widgets" "smith-2023-widgets"
    "smith-2023-widgets" rfl (by decide) rfl (by decide) rfl (by decide) (by decide)
    (by decide)
  exact ⟨congrArg Prod.fst h.1, h.2.1.trans (by rfl), h.2.2.trans (by rfl)⟩

/-- C2: the end-to-end scenario.  First page text
`"Authors: A. Smith\nYear: 2023\nTitle: Widgets"`, mocked 200 response
`{"candidates":[{"content":{"parts":[{"text":"smith-2023-widgets"}]}}]}`,
kebab-case style, destination free: the file is renamed to
`smith-2023-widgets.pdf` in the same directory and the new path is
returned (the enabled-by-default backup copy also appears). -/
theorem rename_file_end_to_end :
    Processor.rename_file scenarioEnv [("/docs/doc.pdf", 7)] "/docs/doc.pdf" none =
      (some "/docs/smith-2023-widgets.pdf",
        [("/docs/smith-2023-widgets.pdf", 7), ("/docs/.backup/doc.pdf", 7)]) := by
  rfl

/-! Character-level facts used by the idempotence proofs. -/

theorem char_eq_of_toNat_eq {c d : Char} (h : c.toNat = d.toNat) : c = d :=
  Char.eq_of_val_eq (UInt32.eq_of_toBitVec_eq (BitVec.eq_of_toNat_eq h))

theorem toNat_ofNat_valid {m : Nat} (h : m.isValidChar) : (Char.ofNat m).toNat = m := by
  rw [Char.ofNat, dif_pos h]
  rfl

theorem pyIsSpace_false_of_gt {c : Char} (h : 32 < c.toNat) : pyIsSpace c = false := by
  have h1 : c ≠ ' ' := fun e => by rw [e] at h; exact absurd h (by decide)
  have h2 : c ≠ '\t' := fun e => by rw [e] at h; exact absurd h (by decide)
  have h3 : c ≠ '\n' := fun e => by rw [e] at h; exact absurd h (by decide)
  have h4 : c ≠ '\r' := fun e => by rw [e] at h; exact absurd h (by decide)
  have h5 : c ≠ '\x0b' := fun e => by rw [e] at h; exact absurd h (by decide)
  have h6 : c ≠ '\x0c' := fun e => by rw [e] at h; exact absurd h (by decide)
  simp [pyIsSpace, h1, h2, h3, h4, h5, h6]

theorem toLower_eq_of_upper {c : Char} (h : 65 ≤ c.toNat ∧ c.toNat ≤ 90) :
    Char.toLower c = Char.ofNat (c.toNat + 32) := by
  simp only [Char.toLower]
  rw [if_pos ⟨h.1, h.2⟩]

theorem toLower_toNat_of_upper {c : Char} (h : 65 ≤ c.toNat ∧ c.toNat ≤ 90) :
    (Char.toLower c).toNat = c.toNat + 32 := by
  rw [toLower_eq_of_upper h, toNat_ofNat_valid (Or.inl (by omega))]

theorem toLower_eq_self {c : Char} (h : ¬(65 ≤ c.toNat ∧ c.toNat ≤ 90)) :
    Char.toLower c = c := by
  simp only [Char.toLower]
  rw [if_neg h]

theorem toLower_toLower (c : Char) : Char.toLower (Char.toLower c) = Char.toLower c := by
  by_cases h : 65 ≤ c.toNat ∧ c.toNat ≤ 90
  · apply toLower_eq_self
    rw [toLower_toNat_of_upper h]
    omega
  · rw [toLower_eq_self h]
    exact toLower_eq_self h

theorem pyIsSpace_toLower (c : Char) : pyIsSpace (Char.toLower c) = pyIsSpace c := by
  by_cases h : 65 ≤ c.toNat ∧ c.toNat ≤ 90
  · have h1 : pyIsSpace c = false := pyIsSpace_false_of_gt (by omega)
    have h2 : pyIsSpace (Char.toLower c) = false :=
      pyIsSpace_false_of_gt (by rw [toLower_toNat_of_upper h]; omega)
    rw [h1, h2]
  · rw [toLower_eq_self h]

theorem toLower_sepFree {c : Char} (hc : c ≠ '-' ∧ c ≠ '_' ∧ c ≠ '.') :
    Char.toLower c ≠ '-' ∧ Char.toLower c ≠ '_' ∧ Char.toLower c ≠ '.' := by
  by_cases h : 65 ≤ c.toNat ∧ c.toNat ≤ 90
  · have ht := toLower_toNat_of_upper h
    refine ⟨fun e => ?_, fun e => ?_, fun e => ?_⟩
    · rw [e, show Char.toNat '-' = 45 from rfl] at ht
      omega
    · rw [e, show Char.toNat '_' = 95 from rfl] at ht
      omega
    · rw [e, show Char.toNat '.' = 46 from rfl] at ht
      omega
  · rw [toLower_eq_self h]
    exact hc

/-! Boundary facts about the two-sided strip. -/

theorem pyStripP_within (p : Char → Bool) (l : List Char) : pyStripP p l <:+: l := by
  unfold pyStripP
  have h1 : l.dropWhile p <:+ l := List.dropWhile_suffix p
  have h2 : (l.dropWhile p).reverse.dropWhile p <:+ (l.dropWhile p).reverse :=
    List.dropWhile_suffix p
  have h3 : ((l.dropWhile p).reverse.dropWhile p).reverse <+: l.dropWhile p := by
    have := List.reverse_prefix.mpr h2
    simpa using this
  exact h3.isInfix.trans h1.isInfix

theorem pyStripP_noLead {p : Char → Bool} (l : List Char) :
    ∀ c, (pyStripP p l).head? = some c → p c = false := by
  intro c hc
  unfold pyStripP at hc
  rw [List.head?_reverse] at hc
  obtain ⟨u, hu⟩ : (l.dropWhile p).reverse.dropWhile p <:+ (l.dropWhile p).reverse :=
    List.dropWhile_suffix p
  have hlast : ((l.dropWhile p).reverse).getLast? = some c := by
    rw [← hu, List.getLast?_append, hc]
    rfl
  rw [List.getLast?_reverse] at hlast
  have hMne : l.dropWhile p ≠ [] := by
    intro h0
    rw [h0] at hlast
    simp at hlast
  have hp := List.head_dropWhile_not p l hMne
  rw [List.head?_eq_head hMne, Option.some.injEq] at hlast
  exact hlast ▸ hp

theorem pyStripP_noTrail {p : Char → Bool} (l : List Char) :
    ∀ c, (pyStripP p l).getLast? = some c → p c = false := by
  intro c hc
  unfold pyStripP at hc
  rw [List.getLast?_reverse] at hc
  have hne : (l.dropWhile p).reverse.dropWhile p ≠ [] := by
    intro h0
    rw [h0] at hc
    simp at hc
  have hp := List.head_dropWhile_not p (l.dropWhile p).reverse hne
  rw [List.head?_eq_head hne, Option.some.injEq] at hc
  exact hc ▸ hp

theorem pyStripP_fixed {p : Char → Bool} (l : List Char)
    (h1 : ∀ c, l.head? = some c → p c = false)
    (h2 : ∀ c, l.getLast? = some c → p c = false) :
    pyStripP p l = l := by
  unfold pyStripP
  have e1 : l.dropWhile p = l := by
    cases l with
    | nil => rfl
    | cons a l => rw [List.dropWhile_cons, if_neg (by simp [h1 a rfl])]
  rw [e1]
  have e2 : l.reverse.dropWhile p = l.reverse := by
    cases hr : l.reverse with
    | nil => rfl
    | cons a r =>
      rw [List.dropWhile_cons, if_neg]
      have ha : l.getLast? = some a := by
        rw [← List.head?_reverse, hr]
        rfl
      simp [h2 a ha]
  rw [e2, List.reverse_reverse]

/-! Small intercalate facts. -/

theorem intercalate_nil2 {α : Type} (sep : List α) :
    List.intercalate sep ([] : List (List α)) = [] := rfl

theorem intercalate_single {α : Type} (sep : List α) (x : List α) :
    List.intercalate sep [x] = x := by
  simp [List.intercalate]

theorem intercalate_cons2 {α : Type} (sep x y : List α) (l : List (List α)) :
    List.intercalate sep (x :: y :: l) = x ++ sep ++ List.intercalate sep (y :: l) := by
  simp [List.intercalate, List.intersperse]

theorem mem_intercalate {α : Type} {c : α} {sep : List α} {ws : List (List α)}
    (h : c ∈ List.intercalate sep ws) : c ∈ sep ∨ ∃ w ∈ ws, c ∈ w := by
  induction ws with
  | nil => simp [intercalate_nil2] at h
  | cons w ws ih =>
    cases ws with
    | nil =>
      right
      exact ⟨w, by simp, by simpa [intercalate_single] using h⟩
    | cons y l =>
      rw [intercalate_cons2] at h
      rcases List.mem_append.mp h with h' | h'
      · rcases List.mem_append.mp h' with h'' | h''
        · right
          exact ⟨w, by simp, h''⟩
        · left
          exact h''
      · rcases ih h' with h'' | ⟨w', hw', hc⟩
        · left
          exact h''
        · right
          exact ⟨w', by simp [List.mem_cons] at hw' ⊢; tauto, hc⟩

theorem mem_intercalate_of_mem {α : Type} {c : α} {sep : List α} {ws : List (List α)}
    {w : List α} (hw : w ∈ ws) (hc : c ∈ w) : c ∈ List.intercalate sep ws := by
  induction ws with
  | nil => simp at hw
  | cons x ws ih =>
    cases ws with
    | nil =>
      simp only [List.mem_singleton] at hw
      subst hw
      simpa [intercalate_single] using hc
    | cons y l =>
      rw [intercalate_cons2]
      rcases List.mem_cons.mp hw with h | h
      · subst h
        exact List.mem_append_left _ (List.mem_append_left _ hc)
      · exact List.mem_append_right _ (ih h)

theorem intercalate_append_singleton {α : Type} (sep : List α) (ws : List (List α))
    (w : List α) :
    List.intercalate sep (ws ++ [w]) =
      if ws.isEmpty then w else List.intercalate sep ws ++ sep ++ w := by
  induction ws with
  | nil => simp [intercalate_single]
  | cons x ws ih =>
    cases ws with
    | nil => simp [intercalate_cons2, intercalate_single]
    | cons y l =>
      have : (x :: y :: l) ++ [w] = x :: ((y :: l) ++ [w]) := rfl
      rw [this, show (y :: l) ++ [w] = y :: (l ++ [w]) from rfl, intercalate_cons2,
        show y :: (l ++ [w]) = (y :: l) ++ [w] from rfl, ih]
      simp [intercalate_cons2, List.append_assoc]

theorem length_intercalate_dropLast {α : Type} (sep : List α) (ws : List (List α)) :
    (List.intercalate sep ws.dropLast).length ≤ (List.intercalate sep ws).length := by
  rcases eq_or_ne ws [] with rfl | hne
  · simp
  · conv_rhs => rw [← List.dropLast_append_getLast hne]
    rw [intercalate_append_singleton]
    by_cases he : ws.dropLast.isEmpty
    · have : ws.dropLast = [] := by simpa [List.isEmpty_iff] using he
      simp [this, intercalate_nil2]
    · rw [if_neg he]
      simp [List.length_append]

theorem splitOn_ne_nil2 (x : Char) (l : List Char) : l.splitOn x ≠ [] := by
  intro h
  have h2 := List.intercalate_splitOn l x
  rw [h] at h2
  have h3 : l = [] := by simpa [intercalate_nil2] using h2.symm
  subst h3
  rw [List.splitOn_nil] at h
  simp at h

/-! `words` against the canonical join. -/

theorem dropWhile_head_false {α : Type} {p : α → Bool} :
    ∀ {l : List α} {x : α} {xs : List α}, l.dropWhile p = x :: xs → p x = false := by
  intro l
  induction l with
  | nil => intro x xs h; simp at h
  | cons a l ih =>
    intro x xs h
    rw [List.dropWhile_cons] at h
    by_cases ha : p a
    · rw [if_pos ha] at h
      exact ih h
    · rw [if_neg ha] at h
      cases h
      simpa using ha

theorem words_of_word {w : List Char} (hw : OkWord w) : words w = [w] := by
  obtain ⟨hne, hsp⟩ := hw
  cases w with
  | nil => exact absurd rfl hne
  | cons c cs =>
    rw [words_cons_word cs (hsp c (List.mem_cons_self c cs))]
    rw [List.takeWhile_eq_self_iff.mpr
      (fun d hd => by simp [hsp d (List.mem_cons_of_mem c hd)])]
    rw [List.dropWhile_eq_nil_iff.mpr
      (fun d hd => by simp [hsp d (List.mem_cons_of_mem c hd)])]
    rw [words_nil]

theorem words_append_word {w : List Char} (r : List Char) (hw : OkWord w) :
    words (w ++ ' ' :: r) = w :: words r := by
  obtain ⟨hne, hsp⟩ := hw
  cases w with
  | nil => exact absurd rfl hne
  | cons c cs =>
    rw [List.cons_append, words_cons_word _ (hsp c (List.mem_cons_self c cs))]
    have hq : ∀ d ∈ cs, (fun d => !pyIsSpace d) d = true := fun d hd => by
      simp [hsp d (List.mem_cons_of_mem c hd)]
    rw [List.takeWhile_append_of_pos hq, List.dropWhile_append_of_pos hq]
    have h1 : List.takeWhile (fun d => !pyIsSpace d) (' ' :: r) = [] := by
      rw [List.takeWhile_cons]
      simp [pyIsSpace]
    have h2 : List.dropWhile (fun d => !pyIsSpace d) (' ' :: r) = ' ' :: r := by
      rw [List.dropWhile_cons]
      simp [pyIsSpace]
    rw [h1, h2, words_cons_space r (by decide), List.append_nil]

theorem words_intercalate {ws : List (List Char)} (h : ∀ w ∈ ws, OkWord w) :
    words (List.intercalate [' '] ws) = ws := by
  induction ws with
  | nil => simp [intercalate_nil2, words_nil]
  | cons w ws ih =>
    cases ws with
    | nil =>
      rw [intercalate_single]
      exact words_of_word (h w (List.mem_cons_self w []))
    | cons y l =>
      rw [intercalate_cons2, List.append_assoc,
        show [' '] ++ List.intercalate [' '] (y :: l) =
          ' ' :: List.intercalate [' '] (y :: l) from rfl]
      rw [words_append_word _ (h w (List.mem_cons_self w _))]
      rw [ih (fun w' hw' => h w' (List.mem_cons_of_mem w hw'))]

theorem noDouble_of_no_space {t : List Char} (h : ∀ c ∈ t, pyIsSpace c = false) :
    NoDouble t := by
  induction t with
  | nil => exact List.chain'_nil
  | cons a t ih =>
    cases t with
    | nil => exact List.chain'_singleton a
    | cons b t =>
      refine List.chain'_cons.mpr ⟨?_, ih (fun c hc => h c (List.mem_cons_of_mem a hc))⟩
      intro hab
      rw [h a (List.mem_cons_self a _)] at hab
      exact absurd hab.1 (by simp)

theorem intercalate_cons_ne_nil {y : List Char} (l : List (List Char)) (hy : y ≠ []) :
    List.intercalate [' '] (y :: l) ≠ [] := by
  cases l with
  | nil => rw [intercalate_single]; exact hy
  | cons z l =>
    rw [intercalate_cons2]
    simp [hy]

theorem canon_intercalate {ws : List (List Char)} (h : ∀ w ∈ ws, OkWord w) :
    Canon (List.intercalate [' '] ws) := by
  induction ws with
  | nil =>
    refine ⟨?_, ?_, List.chain'_nil, ?_⟩ <;> intro c hc <;>
      simp [intercalate_nil2] at hc
  | cons w ws ih =>
    cases ws with
    | nil =>
      rw [intercalate_single]
      obtain ⟨hne, hsp⟩ := h w (List.mem_cons_self w [])
      refine ⟨?_, ?_, noDouble_of_no_space hsp, ?_⟩
      · intro c hc
        exact hsp c (List.mem_of_mem_head? hc)
      · intro c hc
        exact hsp c (List.mem_of_mem_getLast? hc)
      · intro c hc hspc
        exact absurd hspc (by simp [hsp c hc])
    | cons y l =>
      rw [intercalate_cons2, List.append_assoc,
        show [' '] ++ List.intercalate [' '] (y :: l) =
          ' ' :: List.intercalate [' '] (y :: l) from rfl]
      obtain ⟨hlead', htrail', hdouble', honly'⟩ :=
        ih (fun w' hw' => h w' (List.mem_cons_of_mem w hw'))
      obtain ⟨hne, hsp⟩ := h w (List.mem_cons_self w _)
      obtain ⟨hyne, _⟩ := h y (List.mem_cons_of_mem w (List.mem_cons_self y l))
      have ht'ne : List.intercalate [' '] (y :: l) ≠ [] := intercalate_cons_ne_nil l hyne
      refine ⟨?_, ?_, ?_, ?_⟩
      · intro c hc
        cases w with
        | nil => exact absurd rfl hne
        | cons a as =>
          rw [List.cons_append, List.head?_cons, Option.some.injEq] at hc
          exact hc ▸ hsp a (List.mem_cons_self a as)
      · intro c hc
        rw [List.getLast?_append_of_ne_nil _ (by simp)] at hc
        rw [show (' ' :: List.intercalate [' '] (y :: l)) =
          [' '] ++ List.intercalate [' '] (y :: l) from rfl] at hc
        rw [List.getLast?_append_of_ne_nil _ ht'ne] at hc
        exact htrail' c hc
      · refine List.chain'_append.mpr ⟨noDouble_of_no_space hsp, ?_, ?_⟩
        · refine List.chain'_cons'.mpr ⟨?_, hdouble'⟩
          intro b hb hpair
          exact absurd hpair.2 (by simp [hlead' b hb])
        · intro x hx b hb hpair
          exact absurd hpair.1
            (by simp [hsp x (List.mem_of_mem_getLast? hx)])
      · intro c hc hspc
        rcases List.mem_append.mp hc with hcw | hct
        · exact absurd hspc (by simp [hsp c hcw])
        · rcases List.mem_cons.mp hct with rfl | hct'
          · rfl
          · exact honly' c hct' hspc

/-- Canonical text is a fixed point of `" ".join(x.split())` (strong
induction on length). -/
theorem collapse_eq_self_aux (n : Nat) : ∀ t : List Char, t.length = n → Canon t →
    List.intercalate [' '] (words t) = t := by
  induction n using Nat.strong_induction_on with
  | _ n ih =>
    intro t hn hcanon
    obtain ⟨hlead, htrail, hdouble, honly⟩ := hcanon
    match t with
    | [] => simp [words_nil, intercalate_nil2]
    | c :: cs =>
      have hc : pyIsSpace c = false := hlead c rfl
      rw [words_cons_word cs hc]
      rcases hd : cs.dropWhile (fun d => !pyIsSpace d) with _ | ⟨s, d'⟩
      · have hcs : cs.takeWhile (fun d => !pyIsSpace d) = cs := by
          have hsplit := List.takeWhile_append_dropWhile
            (p := fun d => !pyIsSpace d) (l := cs)
          rw [hd, List.append_nil] at hsplit
          exact hsplit
        rw [words_nil, hcs, intercalate_single]
      · have hsps : pyIsSpace s = true := by
          have hw := dropWhile_head_false hd
          simpa using hw
        have hcs_split : cs = cs.takeWhile (fun d => !pyIsSpace d) ++ s :: d' := by
          conv_lhs => rw [← List.takeWhile_append_dropWhile
            (p := fun d => !pyIsSpace d) (l := cs), hd]
        have hd'ne : d' ≠ [] := by
          intro h0
          have hlast : (c :: cs).getLast? = some s := by
            conv_lhs => rw [hcs_split, h0]
            rw [List.getLast?_eq_head?_reverse]
            simp
          have := htrail s hlast
          rw [hsps] at this
          cases this
        rcases hd' : d' with _ | ⟨x, d''⟩
        · exact absurd hd' hd'ne
        · subst hd'
          have hx : pyIsSpace x = false := by
            have hinf : [s, x] <:+: (c :: cs) :=
              ⟨c :: cs.takeWhile (fun d => !pyIsSpace d), d'', by
                conv_rhs => rw [hcs_split]
                simp⟩
            have hpair := List.chain'_pair.mp ( hdouble.infix hinf)
            by_contra hx'
            exact hpair ⟨hsps, by simpa using hx'⟩
          have hsuffix : (x :: d'') <:+ (c :: cs) :=
            ⟨c :: cs.takeWhile (fun d => !pyIsSpace d) ++ [s], by
              conv_rhs => rw [hcs_split]
              simp⟩
          have hcanon' : Canon (x :: d'') := by
            refine ⟨?_, ?_, hdouble.suffix hsuffix, ?_⟩
            · intro c' hc'
              rw [List.head?_cons, Option.some.injEq] at hc'
              exact hc' ▸ hx
            · intro c' hc'
              apply htrail c'
              obtain ⟨u, hu⟩ := hsuffix
              rw [← hu, List.getLast?_append_of_ne_nil _ (by simp)]
              exact hc'
            · intro c' hc' hspc
              exact honly c' (hsuffix.subset hc') hspc
          have hlen : (x :: d'').length < n := by
            have hcl : cs.length =
                (cs.takeWhile (fun d => !pyIsSpace d)).length + (s :: x :: d'').length := by
              conv_lhs => rw [hcs_split]
              simp
            simp only [List.length_cons] at hn ⊢
            simp only [List.length_cons] at hcl
            omega
          have hrec := ih _ hlen (x :: d'') rfl hcanon'
          have hs_eq : s = ' ' :=
            honly s (List.mem_cons_of_mem c
              ((List.dropWhile_sublist _).mem (by rw [hd]; exact List.mem_cons_self s _)))
              hsps
          rw [words_cons_space _ hsps]
          obtain ⟨w0, ws0, hw0⟩ : ∃ w0 ws0, words (x :: d'') = w0 :: ws0 :=
            ⟨_, _, words_cons_word d'' hx⟩
          rw [hw0, intercalate_cons2, ← hw0, hrec]
          rw [show (c :: cs.takeWhile (fun d => !pyIsSpace d)) ++ [' '] ++ x :: d'' =
            c :: (cs.takeWhile (fun d => !pyIsSpace d) ++ ' ' :: x :: d'') by simp]
          rw [← hs_eq, ← hcs_split]

/-- Canonical text is a fixed point of `" ".join(x.split())`. -/
theorem collapse_eq_self {t : List Char} (h : Canon t) :
    List.intercalate [' '] (words t) = t :=
  collapse_eq_self_aux t.length t rfl h

/-! Invariants of the settings-based sanitizer. -/

theorem removeSpecial_allowed (l : List Char) :
    AllowedOrSpace (TextProcessor.removeSpecial l) := by
  intro c hc
  simp only [TextProcessor.removeSpecial, List.mem_map] at hc
  obtain ⟨a, _, rfl⟩ := hc
  by_cases h : TextProcessor.allowedChar a = true <;> simp [h]

theorem removeSpecial_fixed {t : List Char} (h : AllowedOrSpace t) :
    TextProcessor.removeSpecial t = t := by
  unfold TextProcessor.removeSpecial
  have : ∀ c ∈ t, (if TextProcessor.allowedChar c then c else ' ') = id c := by
    intro c hc
    rcases h c hc with ha | rfl
    · simp [ha]
    · simp
  rw [List.map_congr_left this, List.map_id]

theorem collapse_canon (l : List Char) : Canon (TextProcessor.collapseWs l) :=
  canon_intercalate (fun w hw => (words_ok l w hw).1)

theorem collapse_allowed {l : List Char} (h : AllowedOrSpace l) :
    AllowedOrSpace (TextProcessor.collapseWs l) := by
  intro c hc
  rcases mem_intercalate hc with hsep | ⟨w, hw, hcw⟩
  · right
    simpa using hsep
  · exact h c ((words_ok l w hw).2 c hcw)

theorem beforeLastSpaceP {l r : List Char}
    (h : TextProcessor.beforeLastSpace l = some r) : r <+: l := by
  induction l generalizing r with
  | nil => simp [TextProcessor.beforeLastSpace] at h
  | cons a l ih =>
    rw [TextProcessor.beforeLastSpace] at h
    rcases hb : TextProcessor.beforeLastSpace l with _ | r'
    · rw [hb] at h
      by_cases ha : a = ' '
      · rw [if_pos ha] at h
        cases h
        exact List.nil_prefix
      · rw [if_neg ha] at h
        cases h
    · rw [hb] at h
      cases h
      obtain ⟨t, ht⟩ := ih hb
      exact ⟨t, by rw [List.cons_append, ht]⟩

theorem truncate_props (m : Nat) (l : List Char) (hd : NoDouble l) (hsp : OnlySp l) :
    Canon (TextProcessor.truncateWords m l) ∧
    (TextProcessor.truncateWords m l).Sublist l ∧
    (TextProcessor.truncateWords m l).length ≤ m := by
  unfold TextProcessor.truncateWords
  have hpreTake : l.take m <+: l := List.take_prefix m l
  have hXpre : (TextProcessor.beforeLastSpace (l.take m)).getD (l.take m) <+: l.take m := by
    rcases hb : TextProcessor.beforeLastSpace (l.take m) with _ | r
    · simp
    · simp only [Option.getD_some]
      exact beforeLastSpaceP hb
  have hinfix_l : pyStrip ((TextProcessor.beforeLastSpace (l.take m)).getD (l.take m)) <:+: l :=
    (pyStripP_within _ _).trans ( hXpre.isInfix.trans hpreTake.isInfix)
  refine ⟨⟨?_, ?_, ?_, ?_⟩, ?_, ?_⟩
  · exact fun c hc => pyStripP_noLead _ c hc
  · exact fun c hc => pyStripP_noTrail _ c hc
  · exact hd.infix hinfix_l
  · exact fun c hc hspc => hsp c (hinfix_l.sublist.subset hc) hspc
  · exact hinfix_l.sublist
  · calc (pyStrip ((TextProcessor.beforeLastSpace (l.take m)).getD (l.take m))).length ≤
        ((TextProcessor.beforeLastSpace (l.take m)).getD (l.take m)).length :=
          (pyStripP_within _ _).sublist.length_le
      _ ≤ (l.take m).length := hXpre.sublist.length_le
      _ ≤ m := List.length_take_le m l

theorem ljust_canon {t : List Char} (n : Nat) (h : Canon t) :
    Canon (TextProcessor.ljustUnderscore n t) := by
  obtain ⟨hlead, htrail, hdouble, honly⟩ := h
  have hrep : ∀ c ∈ List.replicate (n - t.length) '_', pyIsSpace c = false := by
    intro c hc
    rw [List.eq_of_mem_replicate hc]
    decide
  refine ⟨?_, ?_, ?_, ?_⟩
  · intro c hc
    unfold TextProcessor.ljustUnderscore at hc
    cases t with
    | nil =>
      rw [List.nil_append] at hc
      exact hrep c (List.mem_of_mem_head? hc)
    | cons a t =>
      rw [List.cons_append, List.head?_cons, Option.some.injEq] at hc
      exact hc ▸ hlead a rfl
  · intro c hc
    unfold TextProcessor.ljustUnderscore at hc
    rcases hn : n - t.length with _ | k
    · rw [hn, List.replicate_zero, List.append_nil] at hc
      exact htrail c hc
    · rw [hn, List.getLast?_append_of_ne_nil _ (by simp)] at hc
      exact hrep c (hn ▸ List.mem_of_mem_getLast? hc)
  · refine List.chain'_append.mpr ⟨hdouble, noDouble_of_no_space hrep, ?_⟩
    intro x hx b hb hpair
    exact absurd hpair.2 (by simp [hrep b (List.mem_of_mem_head? hb)])
  · intro c hc hspc
    rcases List.mem_append.mp hc with h' | h'
    · exact honly c h' hspc
    · exact absurd hspc (by simp [hrep c h'])

theorem ljust_allowed {t : List Char} (n : Nat) (h : AllowedOrSpace t) :
    AllowedOrSpace (TextProcessor.ljustUnderscore n t) := by
  intro c hc
  rcases List.mem_append.mp hc with h' | h'
  · exact h c h'
  · left
    rw [List.eq_of_mem_replicate h']
    rfl

theorem ljust_length {t : List Char} {n : Nat} (h : t.length ≤ n) :
    (TextProcessor.ljustUnderscore n t).length = n := by
  simp only [TextProcessor.ljustUnderscore, List.length_append, List.length_replicate]
  omega

theorem pad_invariants (maxLen minLen : Nat) (hmm : minLen ≤ maxLen) (v : List Char)
    (hc : Canon v) (ha : AllowedOrSpace v) (hlen : v.length ≤ maxLen) :
    Canon (if v.length < minLen then TextProcessor.ljustUnderscore minLen v else v) ∧
    AllowedOrSpace (if v.length < minLen then TextProcessor.ljustUnderscore minLen v else v) ∧
    (if v.length < minLen then TextProcessor.ljustUnderscore minLen v else v).length ≤
      maxLen ∧
    minLen ≤ (if v.length < minLen then TextProcessor.ljustUnderscore minLen v else v).length := by
  by_cases hmin : v.length < minLen
  · rw [if_pos hmin]
    refine ⟨ljust_canon minLen hc, ljust_allowed minLen ha, ?_, ?_⟩
    · rw [ljust_length (by omega)]
      omega
    · rw [ljust_length (by omega)]
  · rw [if_neg hmin]
    exact ⟨hc, ha, hlen, by omega⟩

theorem sanitize_steps (maxLen minLen : Nat) (hmm : minLen ≤ maxLen) (u : List Char)
    (hcu : Canon u) (hau : AllowedOrSpace u) :
    Canon (if (if maxLen < u.length then TextProcessor.truncateWords maxLen u else u).length <
        minLen then
      TextProcessor.ljustUnderscore minLen
        (if maxLen < u.length then TextProcessor.truncateWords maxLen u else u)
      else (if maxLen < u.length then TextProcessor.truncateWords maxLen u else u)) ∧
    AllowedOrSpace (if (if maxLen < u.length then TextProcessor.truncateWords maxLen u
        else u).length < minLen then
      TextProcessor.ljustUnderscore minLen
        (if maxLen < u.length then TextProcessor.truncateWords maxLen u else u)
      else (if maxLen < u.length then TextProcessor.truncateWords maxLen u else u)) ∧
    (if (if maxLen < u.length then TextProcessor.truncateWords maxLen u else u).length <
        minLen then
      TextProcessor.ljustUnderscore minLen
        (if maxLen < u.length then TextProcessor.truncateWords maxLen u else u)
      else (if maxLen < u.length then TextProcessor.truncateWords maxLen u else u)).length ≤
      maxLen ∧
    minLen ≤ (if (if maxLen < u.length then TextProcessor.truncateWords maxLen u
        else u).length < minLen then
      TextProcessor.ljustUnderscore minLen
        (if maxLen < u.length then TextProcessor.truncateWords maxLen u else u)
      else (if maxLen < u.length then TextProcessor.truncateWords maxLen u else u)).length := by
  by_cases hcase : maxLen < u.length
  · rw [if_pos hcase]
    obtain ⟨hc, hsub, hlen⟩ := truncate_props maxLen u hcu.2.2.1 hcu.2.2.2
    exact pad_invariants maxLen minLen hmm _ hc
      (fun c hc' => hau c (hsub.subset hc')) hlen
  · rw [if_neg hcase]
    exact pad_invariants maxLen minLen hmm u hcu hau (by omega)

theorem sanitizeCore_invariants (maxLen minLen : Nat) (hmm : minLen ≤ maxLen)
    (l : List Char) :
    Canon (TextProcessor.sanitizeCore maxLen minLen l) ∧
    AllowedOrSpace (TextProcessor.sanitizeCore maxLen minLen l) ∧
    (TextProcessor.sanitizeCore maxLen minLen l).length ≤ maxLen ∧
    minLen ≤ (TextProcessor.sanitizeCore maxLen minLen l).length :=
  sanitize_steps maxLen minLen hmm
    (TextProcessor.collapseWs (TextProcessor.removeSpecial l))
    (collapse_canon _) (collapse_allowed (removeSpecial_allowed l))

theorem sanitizeCore_eq (maxLen minLen : Nat) (l : List Char) :
    TextProcessor.sanitizeCore maxLen minLen l =
      (if (if maxLen < (TextProcessor.collapseWs (TextProcessor.removeSpecial l)).length then
          TextProcessor.truncateWords maxLen
            (TextProcessor.collapseWs (TextProcessor.removeSpecial l))
        else TextProcessor.collapseWs (TextProcessor.removeSpecial l)).length < minLen then
        TextProcessor.ljustUnderscore minLen
          (if maxLen < (TextProcessor.collapseWs (TextProcessor.removeSpecial l)).length then
            TextProcessor.truncateWords maxLen
              (TextProcessor.collapseWs (TextProcessor.removeSpecial l))
          else TextProcessor.collapseWs (TextProcessor.removeSpecial l))
      else (if maxLen < (TextProcessor.collapseWs (TextProcessor.removeSpecial l)).length then
          TextProcessor.truncateWords maxLen
            (TextProcessor.collapseWs (TextProcessor.removeSpecial l))
        else TextProcessor.collapseWs (TextProcessor.removeSpecial l))) := rfl

theorem sanitizeCore_fixed {maxLen minLen : Nat} {t : List Char} (hc : Canon t)
    (ha : AllowedOrSpace t) (h1 : t.length ≤ maxLen) (h2 : minLen ≤ t.length) :
    TextProcessor.sanitizeCore maxLen minLen t = t := by
  have hcol : TextProcessor.collapseWs t = t := collapse_eq_self hc
  rw [sanitizeCore_eq, removeSpecial_fixed ha, hcol,
    if_neg (show ¬maxLen < t.length by omega),
    if_neg (show ¬t.length < minLen by omega)]

theorem sanitizeCore_idem (maxLen minLen : Nat) (hmm : minLen ≤ maxLen) (l : List Char) :
    TextProcessor.sanitizeCore maxLen minLen (TextProcessor.sanitizeCore maxLen minLen l) =
      TextProcessor.sanitizeCore maxLen minLen l := by
  obtain ⟨hc, ha, h1, h2⟩ := sanitizeCore_invariants maxLen minLen hmm l
  exact sanitizeCore_fixed hc ha h1 h2

theorem toList_mk (l : List Char) : (String.mk l).toList = l := rfl

/-! Invariants of the legacy (utils.py) sanitizer. -/

theorem pyReplaceChar_fixed {a b : Char} {l : List Char} (h : ∀ c ∈ l, c ≠ a) :
    pyReplaceChar a b l = l := by
  unfold pyReplaceChar
  have he : ∀ c ∈ l, (if c = a then b else c) = id c := by
    intro c hc
    rw [if_neg (h c hc)]
    rfl
  rw [List.map_congr_left he, List.map_id]

theorem mem_pyReplaceChar {a b c : Char} {l : List Char}
    (h : c ∈ pyReplaceChar a b l) : c = b ∨ (c ∈ l ∧ c ≠ a) := by
  simp only [pyReplaceChar, List.mem_map] at h
  obtain ⟨x, hx, hxe⟩ := h
  by_cases hxa : x = a
  · rw [if_pos hxa] at hxe
    exact Or.inl hxe.symm
  · rw [if_neg hxa] at hxe
    exact Or.inr ⟨hxe ▸ hx, hxe ▸ hxa⟩

theorem mem_replaceInvalid {c : Char} {l : List Char} (h : c ∈ Utils.replaceInvalid l) :
    c = '_' ∨ (c ∈ l ∧ c ∉ Utils.INVALID_CHARS) := by
  simp only [Utils.replaceInvalid, Utils.INVALID_CHARS, List.foldl_cons, List.foldl_nil] at h
  rcases mem_pyReplaceChar h with rfl | ⟨h, h9⟩
  · exact Or.inl rfl
  rcases mem_pyReplaceChar h with rfl | ⟨h, h8⟩
  · exact Or.inl rfl
  rcases mem_pyReplaceChar h with rfl | ⟨h, h7⟩
  · exact Or.inl rfl
  rcases mem_pyReplaceChar h with rfl | ⟨h, h6⟩
  · exact Or.inl rfl
  rcases mem_pyReplaceChar h with rfl | ⟨h, h5⟩
  · exact Or.inl rfl
  rcases mem_pyReplaceChar h with rfl | ⟨h, h4⟩
  · exact Or.inl rfl
  rcases mem_pyReplaceChar h with rfl | ⟨h, h3⟩
  · exact Or.inl rfl
  rcases mem_pyReplaceChar h with rfl | ⟨h, h2⟩
  · exact Or.inl rfl
  rcases mem_pyReplaceChar h with rfl | ⟨h, h1⟩
  · exact Or.inl rfl
  refine Or.inr ⟨h, ?_⟩
  simp only [Utils.INVALID_CHARS, List.mem_cons, List.not_mem_nil, or_false]
  tauto

theorem replaceInvalid_fixed {l : List Char}
    (h : ∀ c ∈ l, c ∉ Utils.INVALID_CHARS) : Utils.replaceInvalid l = l := by
  simp only [Utils.replaceInvalid, Utils.INVALID_CHARS, List.foldl_cons, List.foldl_nil]
  have hne : ∀ a, a ∈ Utils.INVALID_CHARS → ∀ c ∈ l, c ≠ a := by
    intro a ha c hc he
    exact h c hc (he ▸ ha)
  rw [pyReplaceChar_fixed (hne '<' (by decide)), pyReplaceChar_fixed (hne '>' (by decide)),
    pyReplaceChar_fixed (hne ':' (by decide)), pyReplaceChar_fixed (hne '"' (by decide)),
    pyReplaceChar_fixed (hne '/' (by decide)), pyReplaceChar_fixed (hne '\\' (by decide)),
    pyReplaceChar_fixed (hne '|' (by decide)), pyReplaceChar_fixed (hne '?' (by decide)),
    pyReplaceChar_fixed (hne '*' (by decide))]

theorem mem_of_mem_splitOn {c x : Char} {w l : List Char} (hw : w ∈ l.splitOn x)
    (hc : c ∈ w) : c ∈ l := by
  have hi := List.intercalate_splitOn l x
  rw [← hi]
  exact mem_intercalate_of_mem hw hc

theorem mem_joinedWords {c : Char} {l : List Char} (h : c ∈ Utils.joinedWords l) :
    c = '_' ∨ (pyIsSpace c = false ∧ (c = '_' ∨ (c ∈ l ∧ c ∉ Utils.INVALID_CHARS))) := by
  rcases mem_intercalate h with hsep | ⟨w, hw, hcw⟩
  · left
    simpa using hsep
  · right
    have hw' : w ∈ words (Utils.replaceInvalid l) := List.mem_of_mem_filter hw
    refine ⟨(words_ok _ w hw').1.2 c hcw, ?_⟩
    exact mem_replaceInvalid ((words_ok _ w hw').2 c hcw)

/-- The characters of `joinedWords` are non-whitespace, and Hebrew-free
and invalid-free when the input is Hebrew-free. -/
theorem joinedWords_chars {l : List Char} (hh : ∀ c ∈ l, Utils.isHebrew c = false) :
    ∀ c ∈ Utils.joinedWords l,
      pyIsSpace c = false ∧ Utils.isHebrew c = false ∧ c ∉ Utils.INVALID_CHARS := by
  intro c hc
  rcases mem_joinedWords hc with rfl | ⟨hws, rfl | ⟨hcl, hinv⟩⟩
  · exact ⟨by decide, by decide, by decide⟩
  · exact ⟨hws, by decide, by decide⟩
  · exact ⟨hws, hh c hcl, hinv⟩

/-- The strip/truncate tail of the legacy sanitizer, over an arbitrary
character-well-behaved intermediate value. -/
theorem utils_tail_invariants (maxLen : Nat) (t2 : List Char)
    (hch : ∀ c ∈ t2, pyIsSpace c = false ∧ Utils.isHebrew c = false ∧
      c ∉ Utils.INVALID_CHARS) :
    (∀ c ∈ Utils.stripUnderscore (if maxLen < t2.length then
        List.intercalate ['_'] ((t2.take maxLen).splitOn '_').dropLast else t2),
      pyIsSpace c = false ∧ Utils.isHebrew c = false ∧ c ∉ Utils.INVALID_CHARS) ∧
    (∀ c, (Utils.stripUnderscore (if maxLen < t2.length then
        List.intercalate ['_'] ((t2.take maxLen).splitOn '_').dropLast else t2)).head? =
        some c → c ≠ '_') ∧
    (∀ c, (Utils.stripUnderscore (if maxLen < t2.length then
        List.intercalate ['_'] ((t2.take maxLen).splitOn '_').dropLast else t2)).getLast? =
        some c → c ≠ '_') ∧
    (Utils.stripUnderscore (if maxLen < t2.length then
        List.intercalate ['_'] ((t2.take maxLen).splitOn '_').dropLast else t2)).length ≤
      maxLen := by
  have hstage : ∀ c ∈ (if maxLen < t2.length then
      List.intercalate ['_'] ((t2.take maxLen).splitOn '_').dropLast else t2),
      pyIsSpace c = false ∧ Utils.isHebrew c = false ∧ c ∉ Utils.INVALID_CHARS := by
    by_cases hcase : maxLen < t2.length
    · rw [if_pos hcase]
      intro c hc
      rcases mem_intercalate hc with hsep | ⟨w, hw, hcw⟩
      · have : c = '_' := by simpa using hsep
        exact this ▸ ⟨by decide, by decide, by decide⟩
      · have hw' : w ∈ (t2.take maxLen).splitOn '_' :=
          (List.dropLast_sublist _).mem hw
        exact hch c ((List.take_sublist _ _).mem (mem_of_mem_splitOn hw' hcw))
    · rw [if_neg hcase]
      exact hch
  have hlen : (if maxLen < t2.length then
      List.intercalate ['_'] ((t2.take maxLen).splitOn '_').dropLast else t2).length ≤
      maxLen := by
    by_cases hcase : maxLen < t2.length
    · rw [if_pos hcase]
      calc (List.intercalate ['_'] ((t2.take maxLen).splitOn '_').dropLast).length ≤
          (List.intercalate ['_'] ((t2.take maxLen).splitOn '_')).length :=
            length_intercalate_dropLast _ _
        _ = (t2.take maxLen).length := by rw [List.intercalate_splitOn]
        _ ≤ maxLen := List.length_take_le maxLen t2
    · rw [if_neg hcase]
      omega
  refine ⟨?_, ?_, ?_, ?_⟩
  · intro c hc
    exact hstage c ((pyStripP_within _ _).sublist.subset hc)
  · intro c hc
    have := pyStripP_noLead (p := fun c => c = '_') _ c hc
    simpa using this
  · intro c hc
    have := pyStripP_noTrail (p := fun c => c = '_') _ c hc
    simpa using this
  · calc (Utils.stripUnderscore _).length ≤ _ := (pyStripP_within _ _).sublist.length_le
      _ ≤ maxLen := hlen

theorem utilsCore_eq (maxLen : Nat) (l : List Char) :
    Utils.sanitizeCore maxLen l =
      Utils.stripUnderscore (
        if maxLen < (if (Utils.joinedWords l).any Utils.isHebrew then
            List.intercalate ['_'] (((Utils.joinedWords l).splitOn '_').reverse)
          else Utils.joinedWords l).length then
          List.intercalate ['_'] (((if (Utils.joinedWords l).any Utils.isHebrew then
            List.intercalate ['_'] (((Utils.joinedWords l).splitOn '_').reverse)
          else Utils.joinedWords l).take maxLen).splitOn '_').dropLast
        else (if (Utils.joinedWords l).any Utils.isHebrew then
            List.intercalate ['_'] (((Utils.joinedWords l).splitOn '_').reverse)
          else Utils.joinedWords l)) := rfl

theorem utilsCore_invariants (maxLen : Nat) (l : List Char)
    (hh : ∀ c ∈ l, Utils.isHebrew c = false) :
    (∀ c ∈ Utils.sanitizeCore maxLen l,
      pyIsSpace c = false ∧ Utils.isHebrew c = false ∧ c ∉ Utils.INVALID_CHARS) ∧
    (∀ c, (Utils.sanitizeCore maxLen l).head? = some c → c ≠ '_') ∧
    (∀ c, (Utils.sanitizeCore maxLen l).getLast? = some c → c ≠ '_') ∧
    (Utils.sanitizeCore maxLen l).length ≤ maxLen := by
  have hch := joinedWords_chars hh
  have hheb : (Utils.joinedWords l).any Utils.isHebrew = false :=
    List.any_eq_false.mpr (fun c hc => by simp [(hch c hc).2.1])
  rw [utilsCore_eq, hheb]
  simp only [Bool.false_eq_true, if_false]
  exact utils_tail_invariants maxLen (Utils.joinedWords l) hch

theorem joinedWords_fixed {t : List Char}
    (hws : ∀ c ∈ t, pyIsSpace c = false)
    (hinv : ∀ c ∈ t, c ∉ Utils.INVALID_CHARS) :
    Utils.joinedWords t = t := by
  unfold Utils.joinedWords
  rw [replaceInvalid_fixed hinv]
  rcases eq_or_ne t [] with rfl | hne
  · rw [words_nil]
    rfl
  · rw [words_of_word ⟨hne, hws⟩]
    have hie : t.isEmpty = false := by simp [List.isEmpty_iff, hne]
    rw [show List.filter (fun w => !w.isEmpty) [t] = [t] by simp [List.filter, hie]]
    exact intercalate_single _ _

theorem utilsCore_fixed (maxLen : Nat) (t : List Char)
    (hch : ∀ c ∈ t, pyIsSpace c = false ∧ Utils.isHebrew c = false ∧
      c ∉ Utils.INVALID_CHARS)
    (hlead : ∀ c, t.head? = some c → c ≠ '_')
    (htrail : ∀ c, t.getLast? = some c → c ≠ '_')
    (hlen : t.length ≤ maxLen) :
    Utils.sanitizeCore maxLen t = t := by
  have hji : Utils.joinedWords t = t :=
    joinedWords_fixed (fun c hc => (hch c hc).1) (fun c hc => (hch c hc).2.2)
  have hheb : t.any Utils.isHebrew = false :=
    List.any_eq_false.mpr (fun c hc => by simp [(hch c hc).2.1])
  rw [utilsCore_eq, hji, hheb]
  simp only [Bool.false_eq_true, if_false]
  rw [if_neg (show ¬maxLen < t.length by omega)]
  apply pyStripP_fixed
  · intro c hc
    simp [hlead c hc]
  · intro c hc
    simp [htrail c hc]

theorem utilsCore_idem (maxLen : Nat) (l : List Char)
    (hh : ∀ c ∈ l, Utils.isHebrew c = false) :
    Utils.sanitizeCore maxLen (Utils.sanitizeCore maxLen l) =
      Utils.sanitizeCore maxLen l := by
  obtain ⟨hch, hlead, htrail, hlen⟩ := utilsCore_invariants maxLen l hh
  exact utilsCore_fixed maxLen _ hch hlead htrail hlen

/-- C4 counterexample: `utils.sanitize_filename` is not idempotent — on
the Hebrew input "א ב" one pass yields "ב_א" (word order reversed), and a
second pass reverses again, yielding "א_ב" ≠ "ב_א". -/
theorem utils_sanitize_not_idempotent :
    Utils.sanitize_filename "א ב" = "ב_א" ∧
    Utils.sanitize_filename (Utils.sanitize_filename "א ב") = "א_ב" ∧
    Utils.sanitize_filename (Utils.sanitize_filename "א ב") ≠
      Utils.sanitize_filename "א ב" :=
  ⟨by decide, by decide, by decide⟩

/-- C4 amended: sanitization is idempotent for the settings-based
`sanitize_filename` (`src/utils/text_processor.py`) on every input, and
for the legacy `utils.sanitize_filename` on every input free of Hebrew
characters (on Hebrew input that variant reverses the word order on each
pass). -/
theorem sanitize_idempotent :
    (∀ s : String, TextProcessor.sanitize_filename (TextProcessor.sanitize_filename s) =
      TextProcessor.sanitize_filename s) ∧
    (∀ s : String, NoHebrew s →
      Utils.sanitize_filename (Utils.sanitize_filename s) = Utils.sanitize_filename s) := by
  constructor
  · intro s
    unfold TextProcessor.sanitize_filename
    rw [toList_mk]
    exact congrArg String.mk (sanitizeCore_idem TextProcessor.TITLE_MAX_LENGTH
      TextProcessor.TITLE_MIN_LENGTH (by decide) s.toList)
  · intro s hs
    unfold Utils.sanitize_filename
    rw [toList_mk]
    exact congrArg String.mk (utilsCore_idem Utils.TITLE_MAX_LENGTH s.toList hs)

/-- Witness for C4's amended statement at concrete inputs. -/
theorem sanitize_idempotent_witness :
    TextProcessor.sanitize_filename (TextProcessor.sanitize_filename "A  b! (2023)") =
      TextProcessor.sanitize_filename "A  b! (2023)" ∧
    Utils.sanitize_filename (Utils.sanitize_filename "My File: draft?.pdf") =
      Utils.sanitize_filename "My File: draft?.pdf" :=
  ⟨sanitize_idempotent.1 "A  b! (2023)",
    sanitize_idempotent.2 "My File: draft?.pdf" (by unfold NoHebrew; decide)⟩

/-! The tokenizer of `format_text_by_style` against the style joins. -/

theorem tripleReplace_eq_map (l : List Char) :
    pyReplaceChar '.' ' ' (pyReplaceChar '_' ' ' (pyReplaceChar '-' ' ' l)) =
      l.map sepToSpace := by
  simp only [pyReplaceChar, List.map_map]
  apply List.map_congr_left
  intro c _
  simp only [Function.comp]
  by_cases h1 : c = '-'
  · subst h1
    decide
  · by_cases h2 : c = '_'
    · subst h2
      decide
    · by_cases h3 : c = '.'
      · subst h3
        decide
      · simp [sepToSpace, h1, h2, h3]

theorem map_sepToSpace_fixed {w : List Char} (h : SepFree w) : w.map sepToSpace = w := by
  have he : ∀ c ∈ w, sepToSpace c = id c := by
    intro c hc
    obtain ⟨h1, h2, h3⟩ := h c hc
    simp [sepToSpace, h1, h2, h3]
  rw [List.map_congr_left he, List.map_id]

theorem tokenize_ok (l : List Char) :
    ∀ w ∈ TextProcessor.tokenize l, OkWord w ∧ SepFree w := by
  intro w hw
  unfold TextProcessor.tokenize at hw
  rw [tripleReplace_eq_map] at hw
  refine ⟨(words_ok _ w hw).1, ?_⟩
  intro c hc
  have hcm := (words_ok _ w hw).2 c hc
  simp only [List.mem_map] at hcm
  obtain ⟨a, _, rfl⟩ := hcm
  unfold sepToSpace
  by_cases h : a = '-' ∨ a = '_' ∨ a = '.'
  · rw [if_pos h]
    exact ⟨by decide, by decide, by decide⟩
  · rw [if_neg h]
    push_neg at h
    exact ⟨h.1, h.2.1, h.2.2⟩

theorem map_intercalate {α β : Type} (f : α → β) (sep : List α) :
    ∀ ws : List (List α),
      (List.intercalate sep ws).map f =
        List.intercalate (sep.map f) (ws.map (List.map f)) := by
  intro ws
  induction ws with
  | nil => simp [intercalate_nil2]
  | cons w ws ih =>
    cases ws with
    | nil => simp [intercalate_single]
    | cons y l =>
      rw [intercalate_cons2, List.map_append, List.map_append, ih]
      rw [show List.map (List.map f) (w :: y :: l) =
        List.map f w :: List.map f y :: List.map (List.map f) l from rfl]
      rw [intercalate_cons2]
      rw [show List.map f y :: List.map (List.map f) l =
        List.map (List.map f) (y :: l) from rfl]

theorem tokenize_intercalate {sep : Char} (hsep : sepToSpace sep = ' ')
    {ws : List (List Char)} (h : ∀ w ∈ ws, OkWord w ∧ SepFree w) :
    TextProcessor.tokenize (List.intercalate [sep] ws) = ws := by
  unfold TextProcessor.tokenize
  rw [tripleReplace_eq_map, map_intercalate]
  have hws : ws.map (List.map sepToSpace) = ws := by
    have he : ∀ w ∈ ws, List.map sepToSpace w = id w := by
      intro w hw
      exact map_sepToSpace_fixed (h w hw).2
    rw [List.map_congr_left he, List.map_id]
  rw [show List.map sepToSpace [sep] = [' '] by simp [hsep]]
  rw [hws]
  exact words_intercalate (fun w hw => (h w hw).1)

theorem pyLower_intercalate {sep : Char} (hsep : Char.toLower sep = sep)
    (ws : List (List Char)) :
    pyLower (List.intercalate [sep] ws) = List.intercalate [sep] (ws.map pyLower) := by
  unfold pyLower
  rw [map_intercalate]
  congr 1
  simp [hsep]

theorem pyLower_ok_sepFree {w : List Char} (h : OkWord w ∧ SepFree w) :
    OkWord (pyLower w) ∧ SepFree (pyLower w) := by
  obtain ⟨⟨hne, hsp⟩, hsf⟩ := h
  refine ⟨⟨by simpa [pyLower] using hne, ?_⟩, ?_⟩
  · intro c hc
    simp only [pyLower, List.mem_map] at hc
    obtain ⟨a, ha, rfl⟩ := hc
    rw [pyIsSpace_toLower]
    exact hsp a ha
  · intro c hc
    simp only [pyLower, List.mem_map] at hc
    obtain ⟨a, ha, rfl⟩ := hc
    exact toLower_sepFree (hsf a ha)

theorem pyLower_pyLower (l : List Char) : pyLower (pyLower l) = pyLower l := by
  simp only [pyLower, List.map_map]
  exact List.map_congr_left (fun c _ => by simp [Function.comp, toLower_toLower])

theorem formatCore_sep_idem {sep : Char} (hsp2 : sepToSpace sep = ' ')
    (hlow : Char.toLower sep = sep) (l : List Char) :
    pyLower (List.intercalate [sep] (TextProcessor.tokenize
      (pyLower (List.intercalate [sep] (TextProcessor.tokenize l))))) =
    pyLower (List.intercalate [sep] (TextProcessor.tokenize l)) := by
  have hPok := tokenize_ok l
  rw [pyLower_intercalate hlow (TextProcessor.tokenize l)]
  have hQok : ∀ w ∈ (TextProcessor.tokenize l).map pyLower, OkWord w ∧ SepFree w := by
    intro w hw
    simp only [List.mem_map] at hw
    obtain ⟨a, ha, rfl⟩ := hw
    exact pyLower_ok_sepFree (hPok a ha)
  rw [tokenize_intercalate hsp2 hQok]
  rw [pyLower_intercalate hlow]
  congr 1
  rw [List.map_map]
  exact List.map_congr_left (fun w _ => by simp [Function.comp, pyLower_pyLower])

/-- C5 counterexample: the round-trip fails for `camelCase` and
`PascalCase` — reformatting the already-formatted name lower-cases its
interior capitals ("fooBar" becomes "foobar", "FooBar" becomes
"Foobar"). -/
theorem format_camel_pascal_not_idempotent :
    TextProcessor.format_text_by_style .camelCase "foo bar" = .ok "fooBar" ∧
    TextProcessor.format_text_by_style .camelCase "fooBar" = .ok "foobar" ∧
    ("foobar" : String) ≠ "fooBar" ∧
    TextProcessor.format_text_by_style .pascalCase "foo bar" = .ok "FooBar" ∧
    TextProcessor.format_text_by_style .pascalCase "FooBar" = .ok "Foobar" ∧
    ("Foobar" : String) ≠ "FooBar" :=
  ⟨rfl, rfl, by decide, rfl, rfl, by decide⟩

/-- C5 amended: the formatting round-trip holds for the `snake_case`,
`kebab-case` and space-separated styles — formatting an
already-formatted name reproduces it exactly — while `camelCase` and
`PascalCase` lower-case interior capitals on the second pass (see the
counterexample). -/
theorem format_round_trip :
    (∀ s t : String, TextProcessor.format_text_by_style .snakeCase s = .ok t →
      TextProcessor.format_text_by_style .snakeCase t = .ok t) ∧
    (∀ s t : String, TextProcessor.format_text_by_style .kebabCase s = .ok t →
      TextProcessor.format_text_by_style .kebabCase t = .ok t) ∧
    (∀ s t : String, TextProcessor.format_text_by_style .spaceSeparated s = .ok t →
      TextProcessor.format_text_by_style .spaceSeparated t = .ok t) := by
  refine ⟨?_, ?_, ?_⟩
  · intro s t h
    simp only [TextProcessor.format_text_by_style, TextProcessor.formatCore,
      Except.map, Except.ok.injEq] at h ⊢
    subst h
    rw [toList_mk]
    exact congrArg String.mk (formatCore_sep_idem (by decide) (by decide) s.toList)
  · intro s t h
    simp only [TextProcessor.format_text_by_style, TextProcessor.formatCore,
      Except.map, Except.ok.injEq] at h ⊢
    subst h
    rw [toList_mk]
    exact congrArg String.mk (formatCore_sep_idem (by decide) (by decide) s.toList)
  · intro s t h
    simp only [TextProcessor.format_text_by_style, TextProcessor.formatCore,
      Except.map, Except.ok.injEq] at h ⊢
    subst h
    rw [toList_mk]
    exact congrArg String.mk (congrArg (List.intercalate [' '])
      (@tokenize_intercalate ' ' (by decide) _ (tokenize_ok s.toList)))

/-- Witness for C5's amended statement at concrete formatted names. -/
theorem format_round_trip_witness :
    TextProcessor.format_text_by_style .snakeCase "foo_bar" = .ok "foo_bar" ∧
    TextProcessor.format_text_by_style .kebabCase "foo-bar" = .ok "foo-bar" ∧
    TextProcessor.format_text_by_style .spaceSeparated "foo bar" = .ok "foo bar" := by
  refine ⟨?_, ?_, ?_⟩
  · exact format_round_trip.1 "Foo Bar" "foo_bar" rfl
  · exact format_round_trip.2.1 "Foo Bar" "foo-bar" rfl
  · exact format_round_trip.2.2 "foo  bar" "foo bar" rfl

end PDFRename
